import Mathlib

/-!
# Verification of the alleato-ai-app ingestion / insight-extraction pipeline

This file is a shallow embedding, in Lean 4, of the core algorithms of the
`backend_rag_pipeline` package:

* the insight quality-control stage of
  `insights/enhanced/business_insights_engine.py`
  (`_filter_and_rank_insights`, `_remove_duplicate_insights`,
  `_calculate_similarity`, `_parse_insights_json` and its fallbacks);
* the chunking engine of `common/text_processor.py`
  (`chunk_text`, `chunk_by_speaker`, `adaptive_chunk_text`,
  `_detect_meeting_transcript`, `_chunk_by_paragraphs_enhanced`, ...);
* the change-detection watcher of `Supabase_Storage/storage_watcher.py`
  (`process_file` and the surrounding batch loops).

Modelling conventions, used throughout:

* Python `str` is modelled as Lean `String` (or `List Char` where character
  recursion is needed); `len` on a string is `String.length` (code points).
  The embedded character classes (`\s`, `\w`, `[a-zA-Z]`) use their ASCII
  meaning; the source applies them to ASCII business text.
* Python floats are modelled as `ℚ`.  Every float produced by the source in
  the fragments below is a ratio of small integers (confidence scores,
  Jaccard similarities `len(inter)/len(union)`) compared against the literals
  0.7 / 0.8 / 0.2; for such values the IEEE-754 comparison performed by
  CPython agrees with the exact rational comparison, so `ℚ` is faithful.
* Python truthiness is modelled explicitly (`pyTruthyQ`, emptiness tests):
  `None`, `0`, `''`, `b''` and empty containers are falsy.
* External services (storage download, `process_file_for_rag`, the LLM) are
  inputs of the model: their outcomes (bytes / success / exception) are
  fields of an environment record, exactly as seen from the embedded code.
* Exceptions are modelled with `Except`/`Option` outcomes where the source
  can raise, and catching corresponds to the `match` on those outcomes.
-/

/-! ## Python string helpers -/

/-- Python whitespace (`str.split()`, regex `\s`, `str.strip()`): space, tab,
newline, carriage return, vertical tab, form feed (ASCII fragment). -/
def pyIsSpace (c : Char) : Bool :=
  c == ' ' || c == '\t' || c == '\n' || c == '\r' || c == '\x0b' || c == '\x0c'

/-- `str.lower()` (ASCII fragment, see header). -/
def pyLower (s : String) : String :=
  String.mk (s.data.map Char.toLower)

/-- Helper for `pyWords`: accumulate the current word (reversed) while
splitting on whitespace runs. -/
def pyWordsAux : List Char → List Char → List (List Char)
  | [], acc => if acc.isEmpty then [] else [acc.reverse]
  | c :: cs, acc =>
    if pyIsSpace c then
      if acc.isEmpty then pyWordsAux cs [] else acc.reverse :: pyWordsAux cs []
    else pyWordsAux cs (c :: acc)

/-- Python `str.split()` with no argument: split on whitespace runs, no empty
words. -/
def pyWords (s : String) : List String :=
  (pyWordsAux s.data []).map String.mk

/-- Python `str.strip()`: remove leading and trailing whitespace. -/
def pyStrip (s : String) : String :=
  String.mk (((s.data.dropWhile pyIsSpace).reverse.dropWhile pyIsSpace).reverse)

/-- `needle in haystack` on Python strings (substring containment). -/
def pyContains : List Char → List Char → Bool
  | needle, [] => needle.isEmpty
  | needle, c :: cs => needle.isPrefixOf (c :: cs) || pyContains needle cs

/-- `needle in haystack` at `String` level. -/
def pyInStr (needle haystack : String) : Bool :=
  pyContains needle.data haystack.data

/-- Python truthiness of an optional numeric value (`None` and `0` are
falsy; `Decimal('0')`/`0.0` are falsy as well). -/
def pyTruthyQ : Option ℚ → Bool
  | none => false
  | some q => decide (q ≠ 0)

/-- Python truthiness of an optional list (`None` and `[]` are falsy). -/
def pyTruthyList {α : Type} : Option (List α) → Bool
  | none => false
  | some l => !l.isEmpty

/-! ## Insight engine data model (`business_insights_engine.py`)

The `EnhancedBusinessInsight` dataclass is embedded with the fields consulted
by the quality-control stage (`_filter_and_rank_insights`,
`_is_obviously_routine`, `_remove_duplicate_insights`, the ranking key).  The
remaining fields of the dataclass (document/project ids, dates, assignee,
quotes, metadata, ...) are never read by these functions and are omitted;
dataclass equality (used by `list.remove`) restricted to the modelled
functions' inputs is field equality, matching derived `DecidableEq`. -/

structure EnhancedBusinessInsight where
  insight_type : String
  title : String
  description : String
  confidence_score : ℚ
  severity : String
  financial_impact : Option ℚ
  critical_path_impact : Bool
  urgency_indicators : Option (List String)
  deriving DecidableEq, Repr

/-- `[t.value for t in BusinessInsightType]` — the fixed insight-type
vocabulary. -/
def businessInsightTypeValues : List String :=
  ["action_item", "decision", "risk", "opportunity", "milestone", "blocker",
   "dependency", "budget_impact", "timeline_change", "stakeholder_concern",
   "technical_debt", "resource_need", "compliance_issue", "strategic_pivot",
   "performance_metric"]

/-- The routine phrases of `_is_obviously_routine`. -/
def obviousRoutinePhrases : List String :=
  ["meeting held", "meeting scheduled", "attendees present",
   "agenda reviewed", "minutes taken", "next meeting",
   "will follow up", "will check back"]

/-- `BusinessInsightsEngine._is_obviously_routine`: reject an insight whose
title+description contains a routine phrase, unless it carries significant
business impact.  The source returns on the first phrase found; since the
keep/reject decision does not depend on which phrase matched, `List.find?`
is equivalent to the source's loop. -/
def is_obviously_routine (insight : EnhancedBusinessInsight) : Bool :=
  let text_to_check := pyLower (insight.title ++ " " ++ insight.description)
  match obviousRoutinePhrases.find? (fun p => pyInStr p text_to_check) with
  | some _ =>
    if pyTruthyQ insight.financial_impact || insight.critical_path_impact ||
        insight.severity == "critical" || pyTruthyList insight.urgency_indicators
    then false
    else true
  | none => false

/-- The per-candidate quality condition of `_filter_and_rank_insights`
(the big conjunction inside its `for` loop). -/
def passes_quality_filter (insight : EnhancedBusinessInsight) : Bool :=
  decide (mkRat 7 10 ≤ insight.confidence_score) &&
  decide (10 ≤ insight.title.length) &&
  decide (20 ≤ insight.description.length) &&
  businessInsightTypeValues.contains insight.insight_type &&
  (["critical", "high", "medium"].contains insight.severity ||
    pyTruthyQ insight.financial_impact || insight.critical_path_impact) &&
  !(is_obviously_routine insight)

/-- `BusinessInsightsEngine._calculate_similarity`: word-set Jaccard
similarity of two strings (0 when either is empty). -/
def calculate_similarity (text1 text2 : String) : ℚ :=
  if text1 = "" ∨ text2 = "" then 0
  else
    let words1 := (pyWords (pyLower text1)).toFinset
    let words2 := (pyWords (pyLower text2)).toFinset
    if words1 = ∅ ∨ words2 = ∅ then 0
    else
      let inter := words1 ∩ words2
      let uni := words1 ∪ words2
      -- `len(intersection) / len(union)`; `mkRat` is exact rational division
      -- (the denominator is nonzero on this branch).
      if uni = ∅ then 0 else mkRat inter.card uni.card

/-- One step of the `_remove_duplicate_insights` outer loop: compare
`insight` with the accumulated `unique_insights`; on the first sufficiently
similar existing record, the higher-confidence one wins (the newcomer
replaces the existing record via `remove`+`append`); otherwise append. -/
def dedupStep (unique_insights : List EnhancedBusinessInsight)
    (insight : EnhancedBusinessInsight) : List EnhancedBusinessInsight :=
  match unique_insights.find? (fun existing =>
      decide (calculate_similarity insight.title existing.title > mkRat 7 10) ||
      decide (calculate_similarity insight.description existing.description > mkRat 8 10)) with
  | some existing =>
    if insight.confidence_score > existing.confidence_score then
      (unique_insights.erase existing) ++ [insight]
    else unique_insights
  | none => unique_insights ++ [insight]

/-- `BusinessInsightsEngine._remove_duplicate_insights`. -/
def remove_duplicate_insights (insights : List EnhancedBusinessInsight) :
    List EnhancedBusinessInsight :=
  if insights.length ≤ 1 then insights
  else insights.foldl dedupStep []

/-- The ranking key `insight_score` of `_filter_and_rank_insights`
(severity weight × confidence × urgency × financial × critical-path,
all multiplicative). -/
def insight_score (insight : EnhancedBusinessInsight) : ℚ :=
  let severity_score : ℚ :=
    if insight.severity = "critical" then 4
    else if insight.severity = "high" then 3
    else if insight.severity = "medium" then 2
    else if insight.severity = "low" then 1
    else 1
  let urgency_score : ℚ := if pyTruthyList insight.urgency_indicators then mkRat 13 10 else 1
  let financial_score : ℚ := if pyTruthyQ insight.financial_impact then mkRat 3 2 else 1
  let critical_path_score : ℚ := if insight.critical_path_impact then 2 else 1
  severity_score * insight.confidence_score * urgency_score * financial_score *
    critical_path_score

/-- `BusinessInsightsEngine._filter_and_rank_insights`: quality filter, then
pairwise dedup, then stable descending sort by `insight_score`
(`sorted(..., reverse=True)`), then truncation to at most 5 records. -/
def filter_and_rank_insights (insights : List EnhancedBusinessInsight) :
    List EnhancedBusinessInsight :=
  if insights.isEmpty then []
  else
    let high_quality_insights := insights.filter passes_quality_filter
    let deduplicated_insights := remove_duplicate_insights high_quality_insights
    let ranked_insights := deduplicated_insights.mergeSort
      (fun a b => decide (insight_score b ≤ insight_score a))
    ranked_insights.take 5

/-! ## Claims C1, C2, C5 — the quality-control stage -/

/-- If the per-candidate filter rejects `i`, the whole stage drops it. -/
theorem filter_and_rank_single_fail (i : EnhancedBusinessInsight)
    (h : passes_quality_filter i = false) :
    filter_and_rank_insights [i] = [] := by
  simp [filter_and_rank_insights, remove_duplicate_insights, h]

/-- If the per-candidate filter accepts `i`, a singleton input passes the
whole stage unchanged. -/
theorem filter_and_rank_single_pass (i : EnhancedBusinessInsight)
    (h : passes_quality_filter i = true) :
    filter_and_rank_insights [i] = [i] := by
  simp [filter_and_rank_insights, remove_duplicate_insights, h]

/-- C1 candidate from the spec's scenario: confidence 0.6, financial impact
10000, all other quality criteria satisfied. -/
def iC1low : EnhancedBusinessInsight :=
  { insight_type := "budget_impact"
    title := "Budget overrun risk flagged"
    description := "Vendor costs exceeded the approved project budget for this quarter."
    confidence_score := mkRat 3 5
    severity := "medium"
    financial_impact := some (mkRat 10000 1)
    critical_path_impact := false
    urgency_indicators := none }

/-- C1 candidate exercising the severity escape hatch: severity `low`,
confidence 0.8, financial impact present. -/
def iC1esc : EnhancedBusinessInsight :=
  { insight_type := "risk"
    title := "Server capacity shortfall"
    description := "Current staging environment cannot handle projected launch traffic."
    confidence_score := mkRat 4 5
    severity := "low"
    financial_impact := some (mkRat 5000 1)
    critical_path_impact := false
    urgency_indicators := none }

/-- C1 (counterexample): the claim asserts that a candidate with
`confidence=0.6` and `financial_impact=10000` survives the filter; in the
code the financial-impact escape hatch only bypasses the severity criterion,
not the confidence threshold, so this candidate is dropped. -/
theorem claim_C1_counterexample :
    iC1low.confidence_score = mkRat 3 5 ∧ iC1low.financial_impact = some (mkRat 10000 1) ∧
    filter_and_rank_insights [iC1low] = [] :=
  ⟨rfl, rfl, filter_and_rank_single_fail _ (by decide)⟩

/-- C1 (amended): a candidate below the 0.7 confidence threshold or the
minimum title/description lengths is dropped by the filtering stage even if
it carries a financial impact or critical-path flag; the escape hatch
applies only to the severity criterion: among candidates meeting the
confidence, length, type-vocabulary and non-routine requirements whose
severity is outside {critical, high, medium}, exactly those carrying a
(non-zero) financial impact or the critical-path flag survive. -/
theorem claim_C1_amended (i : EnhancedBusinessInsight) :
    (i.confidence_score < mkRat 7 10 ∨ i.title.length < 10 ∨ i.description.length < 20 →
      filter_and_rank_insights [i] = []) ∧
    (mkRat 7 10 ≤ i.confidence_score → 10 ≤ i.title.length →
      20 ≤ i.description.length → i.insight_type ∈ businessInsightTypeValues →
      is_obviously_routine i = false → i.severity ∉ ["critical", "high", "medium"] →
      (filter_and_rank_insights [i] = [i] ↔
        (pyTruthyQ i.financial_impact = true ∨ i.critical_path_impact = true))) := by
  constructor
  · intro h
    apply filter_and_rank_single_fail
    unfold passes_quality_filter
    rcases h with h | h | h
    · simp [not_le.mpr h]
    · simp [not_le.mpr h]
    · simp [not_le.mpr h]
  · intro h1 h2 h3 h4 h5 h6
    constructor
    · intro hres
      by_contra hcon
      push_neg at hcon
      have hfin : pyTruthyQ i.financial_impact = false := by
        simpa using hcon.1
      have hcp : i.critical_path_impact = false := by
        simpa using hcon.2
      have hfail : passes_quality_filter i = false := by
        cases hq : passes_quality_filter i with
        | false => rfl
        | true =>
          exfalso
          unfold passes_quality_filter at hq
          simp at h6
          simp [hfin, hcp, h6.1, h6.2.1, h6.2.2] at hq
      rw [filter_and_rank_single_fail i hfail] at hres
      exact absurd hres (by simp)
    · intro hor
      apply filter_and_rank_single_pass
      unfold passes_quality_filter
      rcases hor with hf | hc
      · simp [h1, h2, h3, h4, h5, hf]
      · simp [h1, h2, h3, h4, h5, hc]

/-- C1 (witness): the amended theorem applied to the two concrete candidates
above. -/
theorem claim_C1_witness :
    filter_and_rank_insights [iC1low] = [] ∧
    filter_and_rank_insights [iC1esc] = [iC1esc] :=
  ⟨(claim_C1_amended iC1low).1 (Or.inl (by norm_num [iC1low])),
   ((claim_C1_amended iC1esc).2 (by norm_num [iC1esc]) (by decide) (by decide)
      (by decide) (by decide) (by decide)).mpr (Or.inl (by decide))⟩

/-- C2: the filter/dedup/rank stage persists at most 5 insight records per
document (`ranked_insights[:max_insights]` with `max_insights = 5`). -/
theorem claim_C2_insight_cap (insights : List EnhancedBusinessInsight) :
    (filter_and_rank_insights insights).length ≤ 5 := by
  unfold filter_and_rank_insights
  split
  · simp
  · exact List.length_take_le 5 _

/-- Word-set Jaccard similarity is symmetric. -/
theorem calculate_similarity_comm (a b : String) :
    calculate_similarity a b = calculate_similarity b a := by
  unfold calculate_similarity
  by_cases ha : a = "" <;> by_cases hb : b = "" <;>
    simp [ha, hb, Or.comm]
  by_cases h1 : (pyWords (pyLower a)).toFinset = ∅ <;>
    by_cases h2 : (pyWords (pyLower b)).toFinset = ∅ <;>
      simp [h1, h2, Finset.inter_comm, Finset.union_comm]

/-- C5 pair with description Jaccard similarity exactly 0.8 and dissimilar
titles: word sets {a,b,c,d} vs {a,b,c,d,e}. -/
def iC5x : EnhancedBusinessInsight :=
  { insight_type := "risk"
    title := "alpha review"
    description := "a b c d"
    confidence_score := mkRat 9 10
    severity := "medium"
    financial_impact := none
    critical_path_impact := false
    urgency_indicators := none }

/-- See `iC5x`; lower confidence. -/
def iC5y : EnhancedBusinessInsight :=
  { insight_type := "risk"
    title := "beta checkpoint"
    description := "a b c d e"
    confidence_score := mkRat 3 4
    severity := "medium"
    financial_impact := none
    critical_path_impact := false
    urgency_indicators := none }

/-- C5 (counterexample): the claim triggers at description similarity
"at least 0.8", but the code deduplicates only on *strictly greater than*
0.8 (`desc_similarity > 0.8`): at exactly 4/5 both insights survive even
though their confidences differ. -/
theorem claim_C5_counterexample :
    calculate_similarity iC5x.description iC5y.description = mkRat 4 5 ∧
    mkRat 8 10 ≤ mkRat 4 5 ∧
    calculate_similarity iC5x.title iC5y.title ≤ mkRat 7 10 ∧
    iC5x.confidence_score ≠ iC5y.confidence_score ∧
    remove_duplicate_insights [iC5x, iC5y] = [iC5x, iC5y] := by
  decide

/-- C5 (amended): with the thresholds as strict inequalities (title
similarity > 0.7 or description similarity > 0.8), exactly one of a pair of
candidate insights survives `_remove_duplicate_insights`, namely the
strictly-higher-confidence one (ties keep the earlier record). -/
theorem claim_C5_amended (i1 i2 : EnhancedBusinessInsight)
    (h : calculate_similarity i1.title i2.title > mkRat 7 10 ∨
         calculate_similarity i1.description i2.description > mkRat 8 10) :
    remove_duplicate_insights [i1, i2] =
      if i2.confidence_score > i1.confidence_score then [i2] else [i1] := by
  have hpred : (decide (calculate_similarity i2.title i1.title > mkRat 7 10) ||
      decide (calculate_similarity i2.description i1.description > mkRat 8 10)) = true := by
    rcases h with h | h
    · rw [calculate_similarity_comm] at h
      simp [h]
    · rw [calculate_similarity_comm] at h
      simp [h]
  simp only [remove_duplicate_insights]
  norm_num
  simp only [List.foldl, dedupStep, List.find?, hpred]
  simp [List.erase_cons_head]

/-- C5 (witness): the amended theorem at a concrete pair with description
similarity 1 > 0.8; the higher-confidence earlier record survives. -/
theorem claim_C5_witness :
    remove_duplicate_insights [iC5x,
      { iC5y with description := "a b c d" }] = [iC5x] := by
  rw [claim_C5_amended iC5x _ (Or.inr (by decide))]
  decide

/-! ## `chunk_text` (`common/text_processor.py`, C10)

`chunk_text` cleans carriage returns, then slices `text[i:i+chunk_size]` for
`i in range(0, len(text), chunk_size - overlap)`.  `range` with step 0 raises
`ValueError`; a negative step yields no iterations.  The slice loop is
embedded with structural fuel (`fuel ≥ length` always holds at call sites:
each iteration consumes at least one character). -/

/-- `text.replace('\r', '')`. -/
def removeCR (l : List Char) : List Char :=
  l.filter (fun c => c ≠ '\r')

/-- The slice loop of `chunk_text`: at each index take `csN` characters and
advance by `s + 1` (the positive `range` step); empty slices are skipped
(`if chunk:`).  `fuel` is structural fuel, at least the list length. -/
def chunkSlicesGo (csN s : ℕ) : ℕ → List Char → List (List Char)
  | 0, _ => []
  | _, [] => []
  | fuel + 1, c :: rest =>
    -- the source binds `chunk = text[i:i+chunk_size]` once; repeated here
    if ((c :: rest).take csN).isEmpty then chunkSlicesGo csN s fuel (rest.drop s)
    else (c :: rest).take csN :: chunkSlicesGo csN s fuel (rest.drop s)

/-- `chunk_text(text, chunk_size, overlap)`: `.error ()` models the
`ValueError` raised by `range(0, n, 0)`. -/
def chunk_text (text : String) (chunk_size overlap : ℤ) : Except Unit (List String) :=
  if text = "" then .ok []
  else
    let cleaned := removeCR text.data
    let step := chunk_size - overlap
    if step = 0 then .error ()
    else if step < 0 then .ok []
    else .ok ((chunkSlicesGo chunk_size.toNat (step.toNat - 1) cleaned.length cleaned).map
      String.mk)

/-- Concatenation of chunks with the `overlap`-prefix of every chunk after
the first removed (the claim's way of reading the output back). -/
def join_minus_overlap (ov : ℕ) : List String → String
  | [] => ""
  | h :: t => String.mk (h.data ++ (t.map (fun s => s.data.drop ov)).flatten)

/-- `((L.map String.mk).map (fun s => s.data.drop ov)) = L.map (List.drop ov)`. -/
theorem map_mk_data_drop (ov : ℕ) (L : List (List Char)) :
    (L.map String.mk).map (fun s => s.data.drop ov) = L.map (List.drop ov) := by
  induction L with
  | nil => rfl
  | cons h t ih => simp only [List.map_cons, ih]

/-- Every slice produced by the loop has length at most `csN`. -/
theorem chunkSlicesGo_length (csN s : ℕ) :
    ∀ (fuel : ℕ) (l : List Char), ∀ c ∈ chunkSlicesGo csN s fuel l, c.length ≤ csN := by
  intro fuel
  induction fuel with
  | zero => intro l c hc; simp [chunkSlicesGo] at hc
  | succ n ih =>
    intro l c hc
    cases l with
    | nil => simp [chunkSlicesGo] at hc
    | cons x rest =>
      rw [chunkSlicesGo] at hc
      split at hc
      · exact ih _ c hc
      · rcases List.mem_cons.mp hc with h | h
        · subst h
          exact List.length_take_le csN (x :: rest)
        · exact ih _ c h

/-- Dropping the overlap prefix of every slice and concatenating yields the
suffix of the input after the first `ov` characters
(`csN = (s + 1) + ov` relates chunk size, step and overlap). -/
theorem chunkSlicesGo_flatten_drop (csN s ov : ℕ) (hcs : csN = (s + 1) + ov) :
    ∀ (fuel : ℕ) (l : List Char), l.length ≤ fuel →
      ((chunkSlicesGo csN s fuel l).map (List.drop ov)).flatten = l.drop ov := by
  intro fuel
  induction fuel with
  | zero =>
    intro l hl
    have : l = [] := List.length_eq_zero.mp (Nat.le_zero.mp hl)
    subst this
    simp [chunkSlicesGo]
  | succ n ih =>
    intro l hl
    cases l with
    | nil => simp [chunkSlicesGo]
    | cons x rest =>
      have hne : ¬(((x :: rest).take csN).isEmpty = true) := by
        have : 0 < csN := by omega
        cases csN with
        | zero => omega
        | succ m => simp [List.take]
      rw [chunkSlicesGo, if_neg hne]
      simp only [List.map_cons, List.flatten_cons]
      have hrec : ((x :: rest).drop (s + 1)).length ≤ n := by
        simp only [List.length_drop, List.length_cons] at *
        omega
      have hdrop : rest.drop s = (x :: rest).drop (s + 1) := by
        simp [List.drop_succ_cons]
      rw [hdrop, ih _ hrec]
      rw [List.drop_take, List.drop_drop]
      have h1 : csN - ov = s + 1 := by omega
      have h2 : s + 1 + ov = csN := by omega
      rw [h1, h2]
      have h3 : List.drop csN (x :: rest) = List.drop (s + 1) (List.drop ov (x :: rest)) := by
        rw [List.drop_drop]
        congr 1
        omega
      rw [h3, List.take_append_drop]

/-- The slice loop reconstructs its input once overlap prefixes are removed
from all chunks after the first. -/
theorem chunkSlicesGo_reconstruct (csN s ov : ℕ) (hcs : csN = (s + 1) + ov)
    (fuel : ℕ) (l : List Char) (hl : l.length ≤ fuel) :
    join_minus_overlap ov ((chunkSlicesGo csN s fuel l).map String.mk) =
      String.mk l := by
  cases fuel with
  | zero =>
    have : l = [] := List.length_eq_zero.mp (Nat.le_zero.mp hl)
    subst this
    simp [chunkSlicesGo, join_minus_overlap]
  | succ n =>
    cases l with
    | nil => simp [chunkSlicesGo, join_minus_overlap]
    | cons x rest =>
      have hne : ¬(((x :: rest).take csN).isEmpty = true) := by
        have : 0 < csN := by omega
        cases csN with
        | zero => omega
        | succ m => simp [List.take]
      rw [chunkSlicesGo, if_neg hne]
      simp only [List.map_cons, join_minus_overlap]
      have hrec : ((x :: rest).drop (s + 1)).length ≤ n := by
        simp only [List.length_drop, List.length_cons] at *
        omega
      have hdrop : rest.drop s = (x :: rest).drop (s + 1) := by
        simp [List.drop_succ_cons]
      rw [hdrop, map_mk_data_drop,
        chunkSlicesGo_flatten_drop csN s ov hcs n _ hrec]
      have hstr : ((x :: rest).take csN : List Char) = String.data (String.mk ((x :: rest).take csN)) := rfl
      rw [List.drop_drop]
      have h4 : s + 1 + ov = csN := by omega
      rw [h4]
      exact congrArg String.mk (List.take_append_drop csN (x :: rest))

/-- With positive chunk size, the loop emits at least one slice on nonempty
input (and none on empty input). -/
theorem chunkSlicesGo_ne_nil (csN s : ℕ) (hcs : 0 < csN) (fuel : ℕ) (l : List Char)
    (hl : l.length ≤ fuel) :
    chunkSlicesGo csN s fuel l = [] ↔ l = [] := by
  cases fuel with
  | zero =>
    have : l = [] := List.length_eq_zero.mp (Nat.le_zero.mp hl)
    subst this
    simp [chunkSlicesGo]
  | succ n =>
    cases l with
    | nil => simp [chunkSlicesGo]
    | cons x rest =>
      have hne : ¬(((x :: rest).take csN).isEmpty = true) := by
        cases csN with
        | zero => omega
        | succ m => simp [List.take]
      rw [chunkSlicesGo, if_neg hne]
      simp

/-- C10 (counterexample): for a non-empty text consisting only of carriage
returns (here `"\r\r"`), `chunk_text` with `0 ≤ overlap < chunk_size` returns
the *empty* list (the `\r`-cleaning empties the text before slicing), against
the claim's "returns a non-empty list of chunks". -/
theorem claim_C10_counterexample :
    ("\r\r" : String) ≠ "" ∧ (0 : ℤ) ≤ 2 ∧ (2 : ℤ) < 4 ∧
    chunk_text "\r\r" 4 2 = .ok [] := by
  refine ⟨by decide, by decide, by decide, ?_⟩
  rfl

/-- C10 (amended): `chunk_text` raises (`ValueError` from `range` step 0)
when `overlap = chunk_size` on any non-empty text; silently returns `[]`
when `overlap > chunk_size`; and for `0 ≤ overlap < chunk_size` returns
chunks of length at most `chunk_size` whose concatenation, after removing
the `overlap`-character prefix of every chunk after the first, is the text
with carriage returns stripped — the list being non-empty if and only if
some character other than `'\r'` remains. -/
theorem claim_C10_amended (text : String) (chunk_size overlap : ℤ) :
    (text ≠ "" → chunk_text text chunk_size chunk_size = .error ()) ∧
    (text ≠ "" → chunk_size < overlap → chunk_text text chunk_size overlap = .ok []) ∧
    (0 ≤ overlap → overlap < chunk_size →
      ∃ chunks, chunk_text text chunk_size overlap = .ok chunks ∧
        (∀ c ∈ chunks, c.length ≤ chunk_size.toNat) ∧
        join_minus_overlap overlap.toNat chunks = String.mk (removeCR text.data) ∧
        (chunks = [] ↔ removeCR text.data = [])) := by
  refine ⟨?_, ?_, ?_⟩
  · intro h
    simp [chunk_text, h]
  · intro h hlt
    have h0 : ¬(chunk_size - overlap = 0) := by omega
    have h1 : chunk_size - overlap < 0 := by omega
    simp [chunk_text, h, h0, h1]
  · intro h0 h1
    by_cases htext : text = ""
    · refine ⟨[], ?_, by simp, ?_, by simp [htext, removeCR]⟩
      · simp [chunk_text, htext]
      · subst htext
        simp [join_minus_overlap, removeCR]
    · have hstep0 : ¬(chunk_size - overlap = 0) := by omega
      have hstep1 : ¬(chunk_size - overlap < 0) := by omega
      refine ⟨(chunkSlicesGo chunk_size.toNat ((chunk_size - overlap).toNat - 1)
        (removeCR text.data).length (removeCR text.data)).map String.mk, ?_, ?_, ?_, ?_⟩
      · simp only [chunk_text, if_neg htext, if_neg hstep0, if_neg hstep1]
      · intro c hc
        simp only [List.mem_map] at hc
        obtain ⟨d, hd, rfl⟩ := hc
        have := chunkSlicesGo_length chunk_size.toNat ((chunk_size - overlap).toNat - 1) _ _ d hd
        simpa using this
      · apply chunkSlicesGo_reconstruct
        · omega
        · exact le_refl _
      · rw [List.map_eq_nil_iff]
        apply chunkSlicesGo_ne_nil
        · omega
        · exact le_refl _

/-- C10 (witness): the amended theorem at `chunk_size = 4`, `overlap ∈
{4, 7, 2}` on concrete texts. -/
theorem claim_C10_witness :
    chunk_text "x" 4 4 = .error () ∧ chunk_text "x" 4 7 = .ok [] ∧
    (∃ chunks, chunk_text "abcdef" 4 2 = .ok chunks ∧
      (∀ c ∈ chunks, c.length ≤ (4 : ℤ).toNat) ∧
      join_minus_overlap (2 : ℤ).toNat chunks = String.mk (removeCR "abcdef".data) ∧
      (chunks = [] ↔ removeCR "abcdef".data = [])) :=
  ⟨(claim_C10_amended "x" 4 4).1 (by decide),
   (claim_C10_amended "x" 4 7).2.1 (by decide) (by decide),
   (claim_C10_amended "abcdef" 4 2).2.2 (by decide) (by decide)⟩

/-! ## Storage watcher (`Supabase_Storage/storage_watcher.py`, C3, C4, C8)

`SupabaseStorageWatcher.process_file` is embedded as a pure function of
(a) the watcher configuration (`dry_run`, the supported-MIME list), (b) a
per-file environment describing the outcomes of the external calls the
method makes (download bytes, `delete_document_by_file_id`,
`extract_text_from_file`, `process_file_for_rag`), (c) the file listing
entry, and (d) the `known_files` map.  It returns the boolean result, the
updated `known_files` map, and a trace of the mutating effects (store
delete attempted, chunk-store write attempted) plus the download.
`compute_file_hash` is SHA-256 of the raw bytes; since the watcher only ever
compares fingerprints for equality, the hash is carried as an opaque
function in the environment. -/

/-- A bucket listing entry as consumed by `process_file` (`created_at` /
`updated_at` are consulted only by `get_changes`, never by `process_file`;
they are carried to state timestamp-independence). -/
structure FileInfo where
  bucket : String
  name : String
  created_at : String
  updated_at : String
  metadata_mimetype : Option String
  deriving DecidableEq, Repr

/-- `self.known_files` (Python dict), as an association list with dict
update semantics: lookup of the (unique) binding of a key. -/
def kfLookup : List (String × String) → String → Option String
  | [], _ => none
  | (k', v') :: rest, k => if k' = k then some v' else kfLookup rest k

/-- `self.known_files[k] = v`. -/
def kfInsert : List (String × String) → String → String → List (String × String)
  | [], k, v => [(k, v)]
  | (k', v') :: rest, k, v =>
    if k' = k then (k, v) :: rest else (k', v') :: kfInsert rest k v

/-- Watcher configuration: the `dry_run` constructor flag and
`config['supported_mime_types']`. -/
structure WatcherConfig where
  dry_run : Bool
  supported_mime_types : List String
  deriving Repr

/-- Outcomes of the external calls made while processing one file.
`download = none` models both a `None` return and a caught download
exception (`download_file` returns `None` in both cases);
`extract = none` / `rag = none` model exceptions raised inside the
`try` block (caught by `process_file`); `delete_raises` likewise. -/
structure FileEnv where
  download : Option (List ℕ)
  hash : List ℕ → String
  delete_raises : Bool
  extract : Option String
  rag : Option Bool

/-- Trace of the calls `process_file` made: the download (always attempted),
`delete_document_by_file_id`, and `process_file_for_rag` (the chunk-store
write path). -/
structure Effects where
  downloaded : Bool
  deleted : Bool
  rag_attempted : Bool
  deriving DecidableEq, Repr

/-- Result of one `process_file` call. -/
structure ProcResult where
  ok : Bool
  known_files : List (String × String)
  effects : Effects
  deriving Repr

/-- The extension→MIME map used when the listing carries no `mimetype`. -/
def mimeMap : List (String × String) :=
  [(".pdf", "application/pdf"), (".txt", "text/plain"), (".md", "text/markdown"),
   (".csv", "text/csv"), (".json", "application/json"), (".html", "text/html"),
   (".docx", "application/vnd.openxmlformats-officedocument.wordprocessingml.document"),
   (".xlsx", "application/vnd.openxmlformats-officedocument.spreadsheetml.sheet"),
   (".mp3", "audio/mpeg"), (".wav", "audio/wav")]

/-- `Path(file_path).suffix.lower()`: extension (with dot) of the last path
component; empty for dotless names, leading-dot names and trailing dots. -/
def pySuffixLower (p : String) : String :=
  let base := (p.data.reverse.takeWhile (fun c => c ≠ '/')).reverse
  let revBase := base.reverse
  let afterDot := revBase.takeWhile (fun c => c ≠ '.')
  if afterDot.length = revBase.length then ""
  else if afterDot.length = 0 then ""
  else if afterDot.length + 1 = revBase.length then ""
  else pyLower (String.mk ('.' :: afterDot.reverse))

/-- Extension-based MIME inference (`mime_map.get(ext, 'application/octet-stream')`). -/
def resolveMimeFromExt (file_path : String) : String :=
  match (mimeMap.find? (fun p => p.1 == pySuffixLower file_path)) with
  | some p => p.2
  | none => "application/octet-stream"

/-- MIME resolution of `process_file`: the listing's `metadata.mimetype` if
truthy, else inferred from the extension with `application/octet-stream`
fallback. -/
def resolveMime (metadata_mimetype : Option String) (file_path : String) : String :=
  match metadata_mimetype with
  | some m => if m = "" then resolveMimeFromExt file_path else m
  | none => resolveMimeFromExt file_path

/-- The part of `process_file` after the fingerprint-skip check: MIME
check, dry-run branch, and the `try` block (delete old version if known,
extract text, `process_file_for_rag`, fingerprint update on success; every
exception inside the block is caught and yields `False`). -/
def process_file_body (cfg : WatcherConfig) (env : FileEnv) (info : FileInfo)
    (known_files : List (String × String)) (file_id file_hash : String) : ProcResult :=
  let mime_type := resolveMime info.metadata_mimetype info.name
  -- `if not self.is_mime_type_supported(mime_type): return False`
  if cfg.supported_mime_types.contains mime_type then
    if cfg.dry_run then
      ⟨true, known_files, ⟨true, false, false⟩⟩
    else
      -- the `try` block: delete old version if known, extract, process, record
      let is_known := (kfLookup known_files file_id).isSome
      if is_known && env.delete_raises then
        ⟨false, known_files, ⟨true, true, false⟩⟩
      else
        match env.extract with
        | none => ⟨false, known_files, ⟨true, is_known, false⟩⟩
        | some text =>
          if text = "" then ⟨false, known_files, ⟨true, is_known, false⟩⟩
          else
            match env.rag with
            | none => ⟨false, known_files, ⟨true, is_known, true⟩⟩
            | some false => ⟨false, known_files, ⟨true, is_known, true⟩⟩
            | some true =>
              ⟨true, kfInsert known_files file_id file_hash, ⟨true, is_known, true⟩⟩
  else
    ⟨false, known_files, ⟨true, false, false⟩⟩

/-- `SupabaseStorageWatcher.process_file`: download, fingerprint skip check,
then `process_file_body`. -/
def process_file (cfg : WatcherConfig) (env : FileEnv) (info : FileInfo)
    (known_files : List (String × String)) : ProcResult :=
  let file_id := info.bucket ++ "/" ++ info.name
  match env.download with
  | none => ⟨false, known_files, ⟨true, false, false⟩⟩
  | some file_content =>
    if file_content.isEmpty then ⟨false, known_files, ⟨true, false, false⟩⟩
    else
      let file_hash := env.hash file_content
      if kfLookup known_files file_id = some file_hash then
        ⟨true, known_files, ⟨true, false, false⟩⟩
      else
        process_file_body cfg env info known_files file_id file_hash

/-- The per-file loop of `backfill` (also `watch_for_changes` after its
rate-limit truncation): each file is processed in turn, the result is not
consulted, and the `known_files` state threads through. -/
def process_batch (cfg : WatcherConfig) :
    List (FileEnv × FileInfo) → List (String × String) →
      List Bool × List (String × String)
  | [], known_files => ([], known_files)
  | (env, info) :: rest, known_files =>
    let r := process_file cfg env info known_files
    let rec_result := process_batch cfg rest r.known_files
    (r.ok :: rec_result.1, rec_result.2)

/-- `save_state` / `save_last_check_time`: in dry-run mode the persisted
state is untouched; otherwise the current state is persisted. -/
def save_state {σ : Type} (dry_run : Bool) (current persisted : σ) : σ :=
  if dry_run then persisted else current

/-- Dict-update lookup: the inserted key maps to the new value. -/
theorem kfLookup_insert_self (m : List (String × String)) (k v : String) :
    kfLookup (kfInsert m k v) k = some v := by
  induction m with
  | nil =>
    show (if k = k then some v else (none : Option String)) = some v
    rw [if_pos rfl]
  | cons p rest ih =>
    obtain ⟨k', v'⟩ := p
    show kfLookup (if k' = k then (k, v) :: rest else (k', v') :: kfInsert rest k v) k
      = some v
    by_cases h : k' = k
    · rw [if_pos h]
      show (if k = k then some v else kfLookup rest k) = some v
      rw [if_pos rfl]
    · rw [if_neg h]
      show (if k' = k then some v' else kfLookup (kfInsert rest k v) k) = some v
      rw [if_neg h]
      exact ih

/-- Dict-update lookup: other keys are untouched. -/
theorem kfLookup_insert_other (m : List (String × String)) (k v key : String)
    (h : key ≠ k) :
    kfLookup (kfInsert m k v) key = kfLookup m key := by
  induction m with
  | nil =>
    show (if k = key then some v else (none : Option String)) = none
    exact if_neg (fun hh => h hh.symm)
  | cons p rest ih =>
    obtain ⟨k', v'⟩ := p
    show kfLookup (if k' = k then (k, v) :: rest else (k', v') :: kfInsert rest k v) key
      = kfLookup ((k', v') :: rest) key
    by_cases hk : k' = k
    · rw [if_pos hk]
      show (if k = key then some v else kfLookup rest key)
        = (if k' = key then some v' else kfLookup rest key)
      rw [if_neg (fun hh => h hh.symm),
        if_neg (fun hh : k' = key => h (hh.symm.trans hk))]
    · rw [if_neg hk]
      show (if k' = key then some v' else kfLookup (kfInsert rest k v) key)
        = (if k' = key then some v' else kfLookup rest key)
      by_cases hkey : k' = key
      · rw [if_pos hkey, if_pos hkey]
      · rw [if_neg hkey, if_neg hkey]
        exact ih

/-- Exhaustive outcome characterization of `process_file`: failure leaves
the map unchanged; success is either the fingerprint skip, the dry-run
branch, or the real processing path which records the fingerprint. -/
theorem process_file_spec (cfg : WatcherConfig) (env : FileEnv) (info : FileInfo)
    (kf : List (String × String)) :
    ((process_file cfg env info kf).ok = false ∧
      (process_file cfg env info kf).known_files = kf) ∨
    ((process_file cfg env info kf).ok = true ∧
      (process_file cfg env info kf).known_files = kf ∧
      ∃ b, env.download = some b ∧
        kfLookup kf (info.bucket ++ "/" ++ info.name) = some (env.hash b)) ∨
    ((process_file cfg env info kf).ok = true ∧ cfg.dry_run = true ∧
      (process_file cfg env info kf).known_files = kf) ∨
    ((process_file cfg env info kf).ok = true ∧
      ∃ b, env.download = some b ∧
        (process_file cfg env info kf).known_files =
          kfInsert kf (info.bucket ++ "/" ++ info.name) (env.hash b)) := by
  unfold process_file process_file_body
  cases hd : env.download with
  | none => simp
  | some b =>
    cases b with
    | nil => simp
    | cons x xs =>
      by_cases hskip : kfLookup kf (info.bucket ++ "/" ++ info.name) =
          some (env.hash (x :: xs))
      · simp only [List.isEmpty_cons, Bool.false_eq_true, if_false, hskip, if_pos rfl]
        right; left
        exact ⟨rfl, rfl, x :: xs, rfl, rfl⟩
      · simp only [List.isEmpty_cons, Bool.false_eq_true, if_false, if_neg hskip]
        by_cases hsup : (cfg.supported_mime_types.contains
            (resolveMime info.metadata_mimetype info.name)) = true
        · rw [if_pos hsup]
          by_cases hdry : cfg.dry_run = true
          · rw [if_pos hdry]
            right; right; left
            exact ⟨rfl, hdry, rfl⟩
          · rw [if_neg hdry]
            by_cases hdel : ((kfLookup kf (info.bucket ++ "/" ++ info.name)).isSome &&
                env.delete_raises) = true
            · rw [if_pos hdel]
              simp
            · rw [if_neg hdel]
              cases hex : env.extract with
              | none => simp
              | some t =>
                dsimp only
                by_cases ht : t = ""
                · simp [ht]
                · rw [if_neg ht]
                  cases hrag : env.rag with
                  | none => simp
                  | some ok =>
                    cases ok with
                    | false => simp
                    | true =>
                      dsimp only
                      right; right; right
                      exact ⟨rfl, x :: xs, rfl, rfl⟩
        · rw [if_neg hsup]
          simp

/-- In dry-run mode `process_file` leaves the map unchanged and performs
only the download (no delete, no chunk-store write). -/
theorem process_file_dry_run (cfg : WatcherConfig) (env : FileEnv) (info : FileInfo)
    (kf : List (String × String)) (hdry : cfg.dry_run = true) :
    (process_file cfg env info kf).known_files = kf ∧
    (process_file cfg env info kf).effects = ⟨true, false, false⟩ := by
  unfold process_file process_file_body
  cases env.download with
  | none => exact ⟨rfl, rfl⟩
  | some b =>
    cases b with
    | nil => exact ⟨rfl, rfl⟩
    | cons x xs =>
      dsimp only
      rw [if_neg (by simp)]
      by_cases hskip : kfLookup kf (info.bucket ++ "/" ++ info.name) =
          some (env.hash (x :: xs))
      · rw [if_pos hskip]
        exact ⟨rfl, rfl⟩
      · rw [if_neg hskip]
        by_cases hsup : (cfg.supported_mime_types.contains
            (resolveMime info.metadata_mimetype info.name)) = true
        · rw [if_pos hsup, if_pos hdry]
          exact ⟨rfl, rfl⟩
        · rw [if_neg hsup]
          exact ⟨rfl, rfl⟩

/-- In dry-run mode `process_file` reports success whenever the download
yields content and the MIME type is supported. -/
theorem process_file_dry_ok (cfg : WatcherConfig) (env : FileEnv) (info : FileInfo)
    (kf : List (String × String)) (hdry : cfg.dry_run = true) (b : List ℕ)
    (hdl : env.download = some b) (hb : b ≠ [])
    (hsup : cfg.supported_mime_types.contains
      (resolveMime info.metadata_mimetype info.name) = true) :
    (process_file cfg env info kf).ok = true := by
  unfold process_file process_file_body
  rw [hdl]
  cases b with
  | nil => exact absurd rfl hb
  | cons x xs =>
    dsimp only
    rw [if_neg (by simp)]
    by_cases hskip : kfLookup kf (info.bucket ++ "/" ++ info.name) =
        some (env.hash (x :: xs))
    · rw [if_pos hskip]
    · rw [if_neg hskip, if_pos hsup, if_pos hdry]

/-- C3: with a downloaded content whose fingerprint equals the stored one,
`process_file` skips all reprocessing (no delete, no chunk write, map
unchanged) and reports success — the file's `created_at`/`updated_at`
fields (carried in `FileInfo` but never read) play no role; when the
fingerprint differs or is absent, control proceeds to the reprocessing body,
which under real (non-dry) conditions reaches the chunk-store write. -/
theorem claim_C3_content_fingerprint (cfg : WatcherConfig) (env : FileEnv)
    (info : FileInfo) (kf : List (String × String)) (b : List ℕ)
    (hdl : env.download = some b) (hb : b ≠ []) :
    (kfLookup kf (info.bucket ++ "/" ++ info.name) = some (env.hash b) →
      process_file cfg env info kf = ⟨true, kf, ⟨true, false, false⟩⟩) ∧
    (kfLookup kf (info.bucket ++ "/" ++ info.name) ≠ some (env.hash b) →
      process_file cfg env info kf =
        process_file_body cfg env info kf (info.bucket ++ "/" ++ info.name)
          (env.hash b)) ∧
    (cfg.dry_run = false →
      cfg.supported_mime_types.contains
        (resolveMime info.metadata_mimetype info.name) = true →
      env.delete_raises = false →
      ∀ t, env.extract = some t → t ≠ "" →
        (process_file_body cfg env info kf (info.bucket ++ "/" ++ info.name)
          (env.hash b)).effects.rag_attempted = true) := by
  refine ⟨?_, ?_, ?_⟩
  · intro hskip
    unfold process_file
    rw [hdl]
    cases b with
    | nil => exact absurd rfl hb
    | cons x xs =>
      dsimp only
      rw [if_neg (by simp), if_pos hskip]
  · intro hskip
    unfold process_file
    rw [hdl]
    cases b with
    | nil => exact absurd rfl hb
    | cons x xs =>
      dsimp only
      rw [if_neg (by simp), if_neg hskip]
  · intro hdry hsup hdel t hext ht
    unfold process_file_body
    rw [if_pos hsup, if_neg (by simp [hdry]), if_neg (by simp [hdel]), hext]
    dsimp only
    rw [if_neg ht]
    cases env.rag with
    | none => rfl
    | some ok => cases ok <;> rfl

/-- Shared concrete watcher configuration (real mode, `text/plain`
supported). -/
def cfgReal : WatcherConfig := ⟨false, ["text/plain"]⟩

/-- Shared concrete dry-run configuration. -/
def cfgDry : WatcherConfig := ⟨true, ["text/plain"]⟩

/-- Environment of a fully successful processing run on bytes `[1,2,3]`. -/
def envOk : FileEnv :=
  { download := some [1, 2, 3]
    hash := fun b => if b = [1, 2, 3] then "H123" else "Hother"
    delete_raises := false
    extract := some "hello"
    rag := some true }

/-- Environment whose download fails (`None` / caught exception). -/
def envDownloadFail : FileEnv :=
  { download := none
    hash := fun _ => "H"
    delete_raises := false
    extract := none
    rag := none }

/-- A listing entry for `documents/a.txt` with a declared MIME type. -/
def infoTxt : FileInfo :=
  ⟨"documents", "a.txt", "2024-01-01T00:00:00Z", "2024-01-02T00:00:00Z",
    some "text/plain"⟩

/-- C3 (witness): the theorem at the concrete environment: stored
fingerprint `H123` matches the hash of the downloaded bytes, so the call
skips; with an empty map it proceeds to the body, whose chunk-store write is
reached. -/
theorem claim_C3_witness :
    process_file cfgReal envOk infoTxt [("documents/a.txt", "H123")] =
      ⟨true, [("documents/a.txt", "H123")], ⟨true, false, false⟩⟩ ∧
    process_file cfgReal envOk infoTxt [] =
      process_file_body cfgReal envOk infoTxt [] "documents/a.txt" "H123" ∧
    (process_file_body cfgReal envOk infoTxt [] "documents/a.txt" "H123").effects.rag_attempted
      = true :=
  ⟨(claim_C3_content_fingerprint cfgReal envOk infoTxt _ [1, 2, 3] rfl (by decide)).1
      (by decide),
   (claim_C3_content_fingerprint cfgReal envOk infoTxt [] [1, 2, 3] rfl (by decide)).2.1
      (by decide),
   (claim_C3_content_fingerprint cfgReal envOk infoTxt [] [1, 2, 3] rfl (by decide)).2.2
      rfl (by decide) rfl "hello" rfl (by decide)⟩

/-- C4: in real (non-dry) mode, `process_file` updates the stored fingerprint
exactly on success: every failure path (download failure, unsupported MIME,
extraction failure, processing failure, caught exception) leaves the map
unchanged so the file is re-detected later, success leaves the file's entry
at the hash of the downloaded bytes without touching other entries; and the
per-file loop of a batch produces a result for every file, regardless of
earlier failures. -/
theorem claim_C4_fingerprint_iff_success (cfg : WatcherConfig) (env : FileEnv)
    (info : FileInfo) (kf : List (String × String)) (hdry : cfg.dry_run = false) :
    ((process_file cfg env info kf).ok = false →
      (process_file cfg env info kf).known_files = kf) ∧
    ((process_file cfg env info kf).ok = true →
      ∃ b, env.download = some b ∧
        kfLookup (process_file cfg env info kf).known_files
            (info.bucket ++ "/" ++ info.name) = some (env.hash b) ∧
        ∀ key, key ≠ info.bucket ++ "/" ++ info.name →
          kfLookup (process_file cfg env info kf).known_files key =
            kfLookup kf key) ∧
    (∀ (files : List (FileEnv × FileInfo)) (kf0 : List (String × String)),
      (process_batch cfg files kf0).1.length = files.length) := by
  refine ⟨?_, ?_, ?_⟩
  · intro hok
    rcases process_file_spec cfg env info kf with ⟨_, h⟩ | ⟨h, _, _⟩ | ⟨h, _, _⟩ | ⟨h, _⟩ <;>
      first
        | exact h
        | (rw [h] at hok; cases hok)
  · intro hok
    rcases process_file_spec cfg env info kf with
      ⟨h, _⟩ | ⟨_, hkf, b, hdl, hlook⟩ | ⟨_, hdryt, _⟩ | ⟨_, b, hdl, hkf⟩
    · rw [h] at hok; cases hok
    · exact ⟨b, hdl, by rw [hkf]; exact hlook, fun key hkey => by rw [hkf]⟩
    · rw [hdryt] at hdry; cases hdry
    · refine ⟨b, hdl, ?_, ?_⟩
      · rw [hkf]
        exact kfLookup_insert_self kf _ _
      · intro key hkey
        rw [hkf]
        exact kfLookup_insert_other kf _ _ key hkey
  · intro files
    induction files with
    | nil => intro kf0; rfl
    | cons f rest ih =>
      intro kf0
      obtain ⟨e, i⟩ := f
      simp [process_batch, ih]

/-- C4 (witness): the theorem at the concrete real-mode configuration:
a failed download leaves the map unchanged, and a batch of two files (one
failing, one succeeding) produces a result for both. -/
theorem claim_C4_witness :
    (process_file cfgReal envDownloadFail infoTxt [("a", "b")]).known_files =
      [("a", "b")] ∧
    (process_batch cfgReal [(envDownloadFail, infoTxt), (envOk, infoTxt)] []).1.length
      = 2 :=
  ⟨(claim_C4_fingerprint_iff_success cfgReal envDownloadFail infoTxt [("a", "b")] rfl).1
      rfl,
   (claim_C4_fingerprint_iff_success cfgReal envDownloadFail infoTxt [] rfl).2.2
      [(envDownloadFail, infoTxt), (envOk, infoTxt)] []⟩

/-- C8 (counterexample): the claim asserts that in dry-run mode
`process_file` still returns success for every file; on a failed download it
returns `False` even in dry-run mode (the MIME check similarly fails before
the dry-run branch). -/
theorem claim_C8_counterexample :
    cfgDry.dry_run = true ∧
    (process_file cfgDry envDownloadFail infoTxt []).ok = false :=
  ⟨rfl, rfl⟩

/-- C8 (amended): with `dry_run=True`, `process_file` performs no mutating
side effects — no store delete, no chunk-store write, no change to the
known-files map — while the download still occurs, and it returns success
whenever the download yields content and the MIME type is supported
(download failures and unsupported MIME types still return `False`);
`save_state` leaves the persisted state untouched. -/
theorem claim_C8_amended (cfg : WatcherConfig) (env : FileEnv) (info : FileInfo)
    (kf : List (String × String)) (hdry : cfg.dry_run = true) :
    (process_file cfg env info kf).known_files = kf ∧
    (process_file cfg env info kf).effects = ⟨true, false, false⟩ ∧
    (∀ b, env.download = some b → b ≠ [] →
      cfg.supported_mime_types.contains
        (resolveMime info.metadata_mimetype info.name) = true →
      (process_file cfg env info kf).ok = true) ∧
    (∀ current persisted : List (String × String),
      save_state cfg.dry_run current persisted = persisted) := by
  refine ⟨(process_file_dry_run cfg env info kf hdry).1,
    (process_file_dry_run cfg env info kf hdry).2, ?_, ?_⟩
  · intro b hdl hb hsup
    exact process_file_dry_ok cfg env info kf hdry b hdl hb hsup
  · intro current persisted
    simp [save_state, hdry]

/-- C8 (witness): the amended theorem at the dry-run configuration with a
successful download of a supported file. -/
theorem claim_C8_witness :
    (process_file cfgDry envOk infoTxt [("a", "b")]).known_files = [("a", "b")] ∧
    (process_file cfgDry envOk infoTxt [("a", "b")]).effects = ⟨true, false, false⟩ ∧
    (process_file cfgDry envOk infoTxt [("a", "b")]).ok = true ∧
    save_state cfgDry.dry_run [("c", "d")] [("a", "b")] = [("a", "b")] :=
  ⟨(claim_C8_amended cfgDry envOk infoTxt [("a", "b")] rfl).1,
   (claim_C8_amended cfgDry envOk infoTxt [("a", "b")] rfl).2.1,
   (claim_C8_amended cfgDry envOk infoTxt [("a", "b")] rfl).2.2.1 [1, 2, 3] rfl
      (by decide) (by decide),
   (claim_C8_amended cfgDry envOk infoTxt [("a", "b")] rfl).2.2.2 [("c", "d")] [("a", "b")]⟩

/-! ## Chunking engine (`common/text_processor.py`, C6, C7)

`chunk_by_speaker`, `_chunk_by_paragraphs_enhanced`, the shape detectors and
`adaptive_chunk_text` are embedded over `List Char`.  The regular patterns
of the source are hand-compiled to deterministic matchers: each pattern used
here has character classes disjoint from its following literal (`:` ∉
`[a-zA-Z\s]`, `]` ∉ `[^\]]`, ...), so the greedy match never needs
backtracking and `takeWhile` computes the exact match. -/

/-- Python `line.strip()` over `List Char`. -/
def pyStripL (l : List Char) : List Char :=
  ((l.dropWhile pyIsSpace).reverse.dropWhile pyIsSpace).reverse

/-- `'\n'.join(xs)`. -/
def joinNl : List (List Char) → List Char
  | [] => []
  | [x] => x
  | x :: xs => x ++ '\n' :: joinNl xs

/-- `'\n\n'.join(xs)`. -/
def joinNlNl : List (List Char) → List Char
  | [] => []
  | [x] => x
  | x :: xs => x ++ '\n' :: '\n' :: joinNlNl xs

/-- `' '.join(xs)`. -/
def joinSpace : List (List Char) → List Char
  | [] => []
  | [x] => x
  | x :: xs => x ++ ' ' :: joinSpace xs

/-- `text.split('\n')`. -/
def splitOnNl : List Char → List (List Char)
  | [] => [[]]
  | c :: rest =>
    if c = '\n' then [] :: splitOnNl rest
    else
      match splitOnNl rest with
      | [] => [[c]]
      | h :: t => (c :: h) :: t

/-- `text.split('\n\n')` (non-overlapping, left to right); `fuel ≥ length`. -/
def splitOnNlNl : ℕ → List Char → List (List Char)
  | 0, l => [l]
  | fuel + 1, l =>
    match l with
    | '\n' :: '\n' :: rest => [] :: splitOnNlNl fuel rest
    | c :: rest =>
      match splitOnNlNl fuel rest with
      | [] => [[c]]
      | h :: t => (c :: h) :: t
    | [] => [[]]

/-- Regex class `[a-zA-Z\s]` (ASCII). -/
def isNameClass (c : Char) : Bool :=
  c.isAlpha || pyIsSpace c

/-- Regex `\w` (ASCII fragment). -/
def isWordChar (c : Char) : Bool :=
  c.isAlpha || c.isDigit || c == '_'

/-- `chunk_by_speaker` pattern 1, `^([A-Z][a-zA-Z\s]+[a-zA-Z]):\s*(.+)$`, on a
stripped line: the name is the prefix up to the first `:` (the class bars
`:`), at least 3 characters, starting with an upper-case letter and ending
with a letter; at least one character must follow the colon.  Returns the
raw groups (caller strips). -/
def matchSpeakerPattern1 (l : List Char) : Option (List Char × List Char) :=
  let name := l.takeWhile (fun c => c ≠ ':')
  let rest := l.drop (name.length + 1)
  if name.length < l.length ∧ 3 ≤ name.length ∧
      (name.headD ' ').isUpper ∧ name.all isNameClass ∧
      (name.getLastD ' ').isAlpha ∧ rest ≠ []
  then some (name, rest) else none

/-- `chunk_by_speaker` pattern 2, `^\[?([A-Z_]+\s?\d*)\]?:\s*(.+)$`. -/
def matchSpeakerPattern2 (l : List Char) : Option (List Char × List Char) :=
  let l1 := if l.headD ' ' = '[' then l.tail else l
  let run1 := l1.takeWhile (fun c => c.isUpper || c == '_')
  if run1.length = 0 then none
  else
    let l2 := l1.drop run1.length
    let wsTaken := if pyIsSpace (l2.headD 'x') then [l2.headD 'x'] else []
    let l3 := l2.drop wsTaken.length
    let run2 := l3.takeWhile Char.isDigit
    let l4 := l3.drop run2.length
    let l5 := if l4.headD ' ' = ']' then l4.tail else l4
    match l5 with
    | ':' :: rest => if rest ≠ [] then some (run1 ++ wsTaken ++ run2, rest) else none
    | _ => none

/-- `chunk_by_speaker` pattern 3, `^\[([^\]]+)\]\s*([A-Za-z].+)$`. -/
def matchSpeakerPattern3 (l : List Char) : Option (List Char × List Char) :=
  match l with
  | '[' :: rest =>
    let inner := rest.takeWhile (fun c => c ≠ ']')
    if inner.length = 0 then none
    else
      match rest.drop inner.length with
      | ']' :: rest2 =>
        let after := rest2.dropWhile pyIsSpace
        if (after.headD ' ').isAlpha ∧ 2 ≤ after.length
        then some (inner, after) else none
      | _ => none
  | _ => none

/-- `chunk_by_speaker` pattern 4, `^([A-Za-z\s]+)\s*-\s*(.+)$`: the group is
the class run before the first `-`. -/
def matchSpeakerPattern4 (l : List Char) : Option (List Char × List Char) :=
  let pre := l.takeWhile (fun c => c.isAlpha || pyIsSpace c)
  let rest := l.drop (pre.length + 1)
  if 1 ≤ pre.length ∧ (l.drop pre.length).headD ' ' = '-' ∧ rest ≠ []
  then some (pre, rest) else none

/-- The speaker-label patterns of `chunk_by_speaker`, tried in source order;
groups are stripped as in `match.group(1).strip()` / `group(2).strip()`
(for `\s*(.+)$` the stripped group 2 equals the stripped raw rest). -/
def matchSpeakerLine (l : List Char) : Option (List Char × List Char) :=
  match matchSpeakerPattern1 l with
  | some (s, t) => some (pyStripL s, pyStripL t)
  | none =>
    match matchSpeakerPattern2 l with
    | some (s, t) => some (pyStripL s, pyStripL t)
    | none =>
      match matchSpeakerPattern3 l with
      | some (s, t) => some (pyStripL s, pyStripL t)
      | none =>
        match matchSpeakerPattern4 l with
        | some (s, t) => some (pyStripL s, pyStripL t)
        | none => none

/-- A speaker turn (`{'speaker': ..., 'text': ...}`; `turn_index` is the
position in the list). -/
structure Turn where
  speaker : List Char
  text : List Char
  deriving DecidableEq, Repr

/-- The turn-extraction loop state of `chunk_by_speaker`. -/
structure TurnState where
  current_speaker : Option (List Char)
  current_text : List (List Char)
  turns : List Turn
  deriving Repr

/-- Flush the pending turn (`if current_speaker and current_text`): the
speaker must be truthy (present and non-empty) and there must be text. -/
def flushTurn (st : TurnState) : List Turn :=
  match st.current_speaker with
  | some sp =>
    if sp ≠ [] ∧ st.current_text ≠ [] then
      st.turns ++ [⟨sp, pyStripL (joinSpace st.current_text)⟩]
    else st.turns
  | none => st.turns

/-- One line of the turn-extraction loop of `chunk_by_speaker`. -/
def turnsStep (st : TurnState) (rawLine : List Char) : TurnState :=
  let line := pyStripL rawLine
  if line.isEmpty then st
  else
    match matchSpeakerLine line with
    | some (speaker, text) => ⟨some speaker, [text], flushTurn st⟩
    | none =>
      if st.current_text ≠ [] then
        ⟨st.current_speaker, st.current_text ++ [line], st.turns⟩
      else
        let sp := match st.current_speaker with
          | none => some ("Unknown Speaker".data)
          | some [] => some ("Unknown Speaker".data)
          | some s => some s
        ⟨sp, [line], st.turns⟩

/-- The turn extraction phase of `chunk_by_speaker`. -/
def extract_turns (text : List Char) : List Turn :=
  flushTurn ((splitOnNl text).foldl turnsStep ⟨none, [], []⟩)

/-- `turn_text = f"{turn['speaker']}: {turn['text']}"`. -/
def renderTurn (t : Turn) : List Char :=
  t.speaker ++ ':' :: ' ' :: t.text

/-- A chunk emitted by `chunk_by_speaker`.  `content` is
`'\n'.join(context_lines ++ turn_lines)`; `speakers` models the
`chunk_speakers` set as a first-insertion-ordered list (the source's
`list(set)` order is unspecified). -/
structure SpeakerChunk where
  contextLines : List (List Char)
  turnLines : List (List Char)
  speakers : List (List Char)
  turn_range : ℕ × ℕ
  chunk_type : List Char
  deriving DecidableEq, Repr

/-- `'\n'.join(context_turns + current_chunk)`. -/
def speakerChunkContent (c : SpeakerChunk) : List Char :=
  joinNl (c.contextLines ++ c.turnLines)

/-- The `[Context] {speaker}: {text[:100]}...` lines prepended for
continuity (`speaker_overlap` previous turns, truncated). -/
def contextTurnsFor (turns : List Turn) (speaker_overlap start_turn : ℕ) :
    List (List Char) :=
  if 0 < speaker_overlap ∧ 0 < start_turn then
    ((turns.drop (start_turn - speaker_overlap)).take
        (start_turn - (start_turn - speaker_overlap))).map
      (fun t => "[Context] ".data ++ t.speaker ++ ':' :: ' ' :: t.text.take 100 ++
        "...".data)
  else []

/-- `set.add` modelled with first-insertion order. -/
def addSpeaker (ss : List (List Char)) (s : List Char) : List (List Char) :=
  if s ∈ ss then ss else ss ++ [s]

/-- Accumulator of the chunk-building loop of `chunk_by_speaker`. -/
structure SpeakerAcc where
  current_chunk : List (List Char)
  current_size : ℕ
  chunk_speakers : List (List Char)
  start_turn : ℕ
  chunks : List SpeakerChunk
  deriving Repr

/-- The chunk-building loop of `chunk_by_speaker` (`i` is the index of the
next turn; `turns` is the full list, for context lookups). -/
def buildSpeakerGo (turns : List Turn) (max_chunk_size speaker_overlap : ℕ) :
    ℕ → List Turn → SpeakerAcc → List SpeakerChunk
  | _, [], acc =>
    if acc.current_chunk = [] then acc.chunks
    else
      acc.chunks ++ [⟨contextTurnsFor turns speaker_overlap acc.start_turn,
        acc.current_chunk, acc.chunk_speakers,
        (acc.start_turn, turns.length - 1), "speaker_based".data⟩]
  | i, turn :: rest, acc =>
    -- the source binds `turn_text` / `turn_size` once; inlined here
    if acc.current_size + (renderTurn turn).length > max_chunk_size ∧
        acc.current_chunk ≠ [] then
      buildSpeakerGo turns max_chunk_size speaker_overlap (i + 1) rest
        ⟨[renderTurn turn], (renderTurn turn).length + 1, [turn.speaker], i,
          acc.chunks ++ [⟨contextTurnsFor turns speaker_overlap acc.start_turn,
            acc.current_chunk, acc.chunk_speakers, (acc.start_turn, i - 1),
            "speaker_based".data⟩]⟩
    else
      buildSpeakerGo turns max_chunk_size speaker_overlap (i + 1) rest
        ⟨acc.current_chunk ++ [renderTurn turn],
          acc.current_size + (renderTurn turn).length + 1,
          addSpeaker acc.chunk_speakers turn.speaker, acc.start_turn, acc.chunks⟩

/-- `chunk_by_speaker(text, max_chunk_size, speaker_overlap)`.  When no
turns are detected it falls back to `chunk_text(text, max_chunk_size)`
(fallback chunks with `'Unknown'` speakers).  The `range`-step-0
`ValueError` of that fallback for `max_chunk_size = 0` is outside the model
(all call sites pass positive sizes). -/
def chunk_by_speaker (text : List Char) (max_chunk_size speaker_overlap : ℕ) :
    List SpeakerChunk :=
  if text = [] then []
  else
    let turns := extract_turns text
    if turns = [] then
      (chunkSlicesGo max_chunk_size (max_chunk_size - 1)
          (removeCR text).length (removeCR text)).map
        (fun c => ⟨[], [c], ["Unknown".data], (0, 0), "fallback".data⟩)
    else
      buildSpeakerGo turns max_chunk_size speaker_overlap 0 turns ⟨[], 0, [], 0, []⟩

/-- A chunk emitted by `_chunk_by_paragraphs_enhanced`; `content` is
`'\n\n'.join(paragraphs)` (the source's `paragraph_range`/`size` metadata
carries no information the claims consult and is omitted). -/
structure ParagraphChunk where
  paragraphs : List (List Char)
  chunk_type : List Char
  deriving DecidableEq, Repr

/-- `'\n\n'.join(...)` content of a paragraph chunk. -/
def paragraphChunkContent (c : ParagraphChunk) : List Char :=
  joinNlNl c.paragraphs

/-- `paragraphs = [p.strip() for p in text.split('\n\n') if p.strip()]`. -/
def paragraphsOf (text : List Char) : List (List Char) :=
  ((splitOnNlNl text.length text).map pyStripL).filter (fun p => ¬p.isEmpty)

/-- The accumulation loop of `_chunk_by_paragraphs_enhanced`: paragraphs
are gathered until the next one would exceed `max_chunk_size`; on emission,
multi-paragraph chunks carry their last paragraph forward as overlap. -/
def buildParagraphGo (max_chunk_size : ℕ) :
    List (List Char) → List (List Char) × ℕ × List ParagraphChunk →
      List ParagraphChunk
  | [], (current_chunk, _, chunks) =>
    if current_chunk = [] then chunks
    else chunks ++ [⟨current_chunk, "paragraph_based".data⟩]
  | paragraph :: rest, (current_chunk, current_size, chunks) =>
    if current_size + paragraph.length > max_chunk_size ∧ current_chunk ≠ [] then
      if 1 < current_chunk.length then
        buildParagraphGo max_chunk_size rest
          ([current_chunk.getLastD [], paragraph],
            (current_chunk.getLastD []).length + paragraph.length + 2,
            chunks ++ [⟨current_chunk, "paragraph_based".data⟩])
      else
        buildParagraphGo max_chunk_size rest ([paragraph], paragraph.length,
          chunks ++ [⟨current_chunk, "paragraph_based".data⟩])
    else
      buildParagraphGo max_chunk_size rest
        (current_chunk ++ [paragraph], current_size + paragraph.length + 2, chunks)

/-- `_chunk_by_paragraphs_enhanced(text, config)` (the configuration enters
through `max_chunk_size`). -/
def chunk_by_paragraphs_enhanced (text : List Char) (max_chunk_size : ℕ) :
    List ParagraphChunk :=
  let paragraphs := paragraphsOf text
  if paragraphs = [] then [⟨[text], "single_paragraph".data⟩]
  else buildParagraphGo max_chunk_size paragraphs ([], 0, [])

/-- Appending a line to a nonempty join adds a separator and the line. -/
theorem joinNl_append (xs : List (List Char)) (y : List Char) (h : xs ≠ []) :
    joinNl (xs ++ [y]) = joinNl xs ++ '\n' :: y := by
  induction xs with
  | nil => exact absurd rfl h
  | cons x rest ih =>
    cases rest with
    | nil => simp [joinNl]
    | cons x2 rest2 =>
      have hih := ih (by simp)
      simp only [List.cons_append, joinNl, List.append_eq] at hih ⊢
      rw [hih]
      simp

/-- Appending a paragraph to a nonempty join adds the double separator. -/
theorem joinNlNl_append (xs : List (List Char)) (y : List Char) (h : xs ≠ []) :
    joinNlNl (xs ++ [y]) = joinNlNl xs ++ '\n' :: '\n' :: y := by
  induction xs with
  | nil => exact absurd rfl h
  | cons x rest ih =>
    cases rest with
    | nil => simp [joinNlNl]
    | cons x2 rest2 =>
      have hih := ih (by simp)
      simp only [List.cons_append, joinNlNl, List.append_eq] at hih ⊢
      rw [hih]
      simp

/-- Size-bound invariant of the `chunk_by_speaker` build loop: as long as
every remaining turn renders within `max_chunk_size`, every emitted chunk's
turn content (excluding injected context lines) fits in `max_chunk_size`. -/
theorem buildSpeakerGo_bound (turns : List Turn) (max_chunk_size speaker_overlap : ℕ) :
    ∀ (rem : List Turn) (i : ℕ) (acc : SpeakerAcc),
      (∀ t ∈ rem, (renderTurn t).length ≤ max_chunk_size) →
      ((acc.current_chunk = [] ∧ acc.current_size = 0) ∨
        (acc.current_chunk ≠ [] ∧
          (joinNl acc.current_chunk).length + 1 = acc.current_size ∧
          acc.current_size ≤ max_chunk_size + 1)) →
      (∀ c ∈ acc.chunks, (joinNl c.turnLines).length ≤ max_chunk_size) →
      ∀ c ∈ buildSpeakerGo turns max_chunk_size speaker_overlap i rem acc,
        (joinNl c.turnLines).length ≤ max_chunk_size := by
  intro rem
  induction rem with
  | nil =>
    intro i acc _ hacc hchunks c hc
    rw [buildSpeakerGo] at hc
    split at hc
    · exact hchunks c hc
    · rename_i hne
      rcases List.mem_append.mp hc with h | h
      · exact hchunks c h
      · simp only [List.mem_singleton] at h
        subst h
        rcases hacc with ⟨hemp, _⟩ | ⟨_, hsz, hle⟩
        · exact absurd hemp hne
        · show (joinNl acc.current_chunk).length ≤ max_chunk_size
          omega
  | cons turn rest ih =>
    intro i acc hrem hacc hchunks c hc
    rw [buildSpeakerGo] at hc
    have hturn : (renderTurn turn).length ≤ max_chunk_size := hrem turn (by simp)
    have hrem' : ∀ t ∈ rest, (renderTurn t).length ≤ max_chunk_size :=
      fun t ht => hrem t (by simp [ht])
    split at hc
    · rename_i hguard
      refine ih (i + 1) _ hrem' ?_ ?_ c hc
      · right
        refine ⟨by simp, ?_, ?_⟩
        · show (joinNl [renderTurn turn]).length + 1 = (renderTurn turn).length + 1
          simp [joinNl]
        · show (renderTurn turn).length + 1 ≤ max_chunk_size + 1
          omega
      · intro c' hc'
        rcases List.mem_append.mp hc' with h | h
        · exact hchunks c' h
        · simp only [List.mem_singleton] at h
          subst h
          rcases hacc with ⟨hemp, _⟩ | ⟨_, hsz, hle⟩
          · exact absurd hemp hguard.2
          · show (joinNl acc.current_chunk).length ≤ max_chunk_size
            omega
    · rename_i hguard
      refine ih (i + 1) ⟨acc.current_chunk ++ [renderTurn turn],
        acc.current_size + (renderTurn turn).length + 1,
        addSpeaker acc.chunk_speakers turn.speaker, acc.start_turn, acc.chunks⟩
        hrem' ?_ hchunks c hc
      right
      rcases hacc with ⟨hemp, hsz0⟩ | ⟨hne, hsz, hle⟩
      · refine ⟨by simp, ?_, ?_⟩
        · show (joinNl (acc.current_chunk ++ [renderTurn turn])).length + 1 =
            acc.current_size + (renderTurn turn).length + 1
          rw [hemp]
          simp [joinNl, hsz0]
        · show acc.current_size + (renderTurn turn).length + 1 ≤ max_chunk_size + 1
          omega
      · have hsize : ¬(acc.current_size + (renderTurn turn).length > max_chunk_size) :=
          fun hgt => hguard ⟨hgt, hne⟩
        refine ⟨by simp, ?_, ?_⟩
        · show (joinNl (acc.current_chunk ++ [renderTurn turn])).length + 1 =
            acc.current_size + (renderTurn turn).length + 1
          rw [joinNl_append _ _ hne]
          simp only [List.length_append, List.length_cons]
          omega
        · show acc.current_size + (renderTurn turn).length + 1 ≤ max_chunk_size + 1
          omega

/-- Size-bound invariant of the `_chunk_by_paragraphs_enhanced` loop: given
that every remaining paragraph fits in `max_chunk_size`, every emitted
chunk's content excluding its first paragraph (the carried overlap, when
present) fits in `max_chunk_size`. -/
theorem buildParagraphGo_bound (max_chunk_size : ℕ) :
    ∀ (rem : List (List Char)) (cc : List (List Char)) (cs : ℕ)
      (ch : List ParagraphChunk),
      (∀ p ∈ rem, p.length ≤ max_chunk_size) →
      (cc ≠ [] →
        (joinNlNl cc.tail).length ≤ max_chunk_size ∧
        (cc.tail = [] ∨ (joinNlNl cc.tail).length + 2 ≤ cs)) →
      (∀ c ∈ ch, (joinNlNl c.paragraphs.tail).length ≤ max_chunk_size) →
      ∀ c ∈ buildParagraphGo max_chunk_size rem (cc, cs, ch),
        (joinNlNl c.paragraphs.tail).length ≤ max_chunk_size := by
  intro rem
  induction rem with
  | nil =>
    intro cc cs ch _ hinv hch c hc
    rw [buildParagraphGo] at hc
    split at hc
    · exact hch c hc
    · rename_i hne
      rcases List.mem_append.mp hc with h | h
      · exact hch c h
      · simp only [List.mem_singleton] at h
        subst h
        exact (hinv hne).1
  | cons p rest ih =>
    intro cc cs ch hrem hinv hch c hc
    rw [buildParagraphGo] at hc
    have hp : p.length ≤ max_chunk_size := hrem p (by simp)
    have hrem' : ∀ q ∈ rest, q.length ≤ max_chunk_size :=
      fun q hq => hrem q (by simp [hq])
    split at hc
    · rename_i hguard
      have hch' : ∀ c' ∈ ch ++ [(⟨cc, "paragraph_based".data⟩ : ParagraphChunk)],
          (joinNlNl c'.paragraphs.tail).length ≤ max_chunk_size := by
        intro c' hc'
        rcases List.mem_append.mp hc' with h | h
        · exact hch c' h
        · simp only [List.mem_singleton] at h
          subst h
          exact (hinv hguard.2).1
      split at hc
      · refine ih _ _ _ hrem' ?_ hch' c hc
        intro _
        constructor
        · show (joinNlNl [p]).length ≤ max_chunk_size
          simpa [joinNlNl] using hp
        · right
          show (joinNlNl [p]).length + 2 ≤ (cc.getLastD []).length + p.length + 2
          simp [joinNlNl]
      · refine ih _ _ _ hrem' ?_ hch' c hc
        intro _
        constructor
        · show (joinNlNl ([] : List (List Char))).length ≤ max_chunk_size
          simp [joinNlNl]
        · left
          rfl
    · rename_i hguard
      refine ih _ _ _ hrem' ?_ hch c hc
      intro _
      cases cc with
      | nil =>
        constructor
        · show (joinNlNl ([] : List (List Char))).length ≤ max_chunk_size
          simp [joinNlNl]
        · left
          rfl
      | cons c0 cc' =>
        have hsize : cs + p.length ≤ max_chunk_size := by
          by_contra hgt
          exact hguard ⟨by omega, by simp⟩
        cases cc' with
        | nil =>
          constructor
          · show (joinNlNl [p]).length ≤ max_chunk_size
            simpa [joinNlNl] using by omega
          · right
            show (joinNlNl [p]).length + 2 ≤ cs + p.length + 2
            simp only [joinNlNl]
            omega
        | cons c1 cc'' =>
          have hinner := hinv (by simp)
          have htail : (joinNlNl (c1 :: cc'')).length + 2 ≤ cs := by
            rcases hinner.2 with h | h
            · simp at h
            · simpa using h
          constructor
          · show (joinNlNl ((c1 :: cc'') ++ [p])).length ≤ max_chunk_size
            rw [joinNlNl_append _ _ (by simp)]
            simp only [List.length_append, List.length_cons]
            omega
          · right
            show (joinNlNl ((c1 :: cc'') ++ [p])).length + 2 ≤ cs + p.length + 2
            rw [joinNlNl_append _ _ (by simp)]
            simp only [List.length_append, List.length_cons]
            omega

/-- C6 (counterexample): a document that is a single 7-character paragraph,
chunked with `max_chunk_size = 5`, yields one `paragraph_based` chunk whose
content is the whole paragraph — longer than the configured maximum, with
no injected overlap or context content to exclude. -/
theorem claim_C6_counterexample :
    (chunk_by_paragraphs_enhanced "aaaaaaa".data 5).map paragraphChunkContent =
      ["aaaaaaa".data] ∧
    (chunk_by_paragraphs_enhanced "aaaaaaa".data 5).map (fun c => c.paragraphs) =
      [["aaaaaaa".data]] ∧
    (chunk_by_paragraphs_enhanced "aaaaaaa".data 5).map (fun c => c.chunk_type) =
      ["paragraph_based".data] ∧
    ¬(("aaaaaaa".data : List Char).length ≤ 5) := by
  refine ⟨?_, ?_, ?_, by decide⟩ <;> rfl

/-- C6 (amended): the chunk-size bound holds for the content *excluding*
injected overlap/context, and only under the proviso that no single unit
exceeds the maximum: for speaker-turn chunking, if every rendered turn fits
in `max_chunk_size` then every chunk's turn content (without the `[Context]`
lines) fits; for enhanced paragraph chunking, if every paragraph fits then
every chunk's content without its first paragraph (the carried overlap,
when present) fits.  A single turn or paragraph larger than the maximum
produces an oversized chunk. -/
theorem claim_C6_amended :
    (∀ (text : List Char) (max_chunk_size speaker_overlap : ℕ),
      (∀ t ∈ extract_turns text, (renderTurn t).length ≤ max_chunk_size) →
      ∀ c ∈ chunk_by_speaker text max_chunk_size speaker_overlap,
        (joinNl c.turnLines).length ≤ max_chunk_size) ∧
    (∀ (text : List Char) (max_chunk_size : ℕ),
      (∀ p ∈ paragraphsOf text, p.length ≤ max_chunk_size) →
      ∀ c ∈ chunk_by_paragraphs_enhanced text max_chunk_size,
        (joinNlNl c.paragraphs.tail).length ≤ max_chunk_size) := by
  constructor
  · intro text max_chunk_size speaker_overlap hturns c hc
    unfold chunk_by_speaker at hc
    split at hc
    · simp at hc
    · dsimp only at hc
      split at hc
      · simp only [List.mem_map] at hc
        obtain ⟨d, hd, rfl⟩ := hc
        show (joinNl [d]).length ≤ max_chunk_size
        simpa [joinNl] using
          chunkSlicesGo_length max_chunk_size (max_chunk_size - 1) _ _ d hd
      · exact buildSpeakerGo_bound (extract_turns text) max_chunk_size
          speaker_overlap (extract_turns text) 0 ⟨[], 0, [], 0, []⟩ hturns
          (Or.inl ⟨rfl, rfl⟩) (by simp) c hc
  · intro text max_chunk_size hparas c hc
    unfold chunk_by_paragraphs_enhanced at hc
    dsimp only at hc
    split at hc
    · simp only [List.mem_singleton] at hc
      subst hc
      show (joinNlNl ([] : List (List Char))).length ≤ max_chunk_size
      simp [joinNlNl]
    · exact buildParagraphGo_bound max_chunk_size (paragraphsOf text) [] 0 []
        hparas (fun h => absurd rfl h) (by simp) c hc

/-- C6 (witness): the amended bounds at a two-speaker transcript with
`max_chunk_size = 8` and at a three-paragraph document with
`max_chunk_size = 5`. -/
theorem claim_C6_witness :
    (joinNl ((chunk_by_speaker "John: hi\nMary: yo".data 8 1).headD
      ⟨[], [], [], (0, 0), []⟩).turnLines).length ≤ 8 ∧
    (joinNlNl ((chunk_by_paragraphs_enhanced "aaa\n\nbbb\n\nccc".data 5).headD
      ⟨[], []⟩).paragraphs.tail).length ≤ 5 :=
  ⟨claim_C6_amended.1 "John: hi\nMary: yo".data 8 1 (by decide) _ (by decide),
   claim_C6_amended.2 "aaa\n\nbbb\n\nccc".data 5 (by decide) _ (by decide)⟩

/-! ## Transcript detection (`_detect_meeting_transcript`, C7)

The detector sums `len(re.findall(p, text))` over four speaker patterns and
compares against the number of non-blank lines.  `re.findall` is embedded as
a left-to-right non-overlapping scan (`scanFindall`): at each position the
deterministic matcher is tried (each pattern's classes are disjoint from its
following literal, so greedy matching needs no backtracking); on a match of
`n` characters the scan resumes after it, else it advances one character.
The matcher receives the previous character for `\b` (a sentinel `'\n'`
stands for the start of the string, where `\b` behaves identically). -/

/-- One `re.findall` step outcome: consumed length and last consumed
character (the `prev` of the resumed scan). -/
def scanFindall (tryM : Char → List Char → Option (ℕ × Char)) :
    Char → ℕ → List Char → ℕ
  | _, 0, _ => 0
  | _, _ + 1, [] => 0
  | prev, fuel + 1, c :: cs =>
    match tryM prev (c :: cs) with
    | some (n, lastc) => 1 + scanFindall tryM lastc fuel ((c :: cs).drop n)
    | none => scanFindall tryM c fuel cs

/-- Pattern `\b[A-Z][a-zA-Z\s]+:\s` of `_detect_meeting_transcript`: an
upper-case letter at a word boundary, a class run of length ≥ 2 overall,
then `:` and one whitespace character. -/
def tryMatchName (prev : Char) (l : List Char) : Option (ℕ × Char) :=
  match l with
  | [] => none
  | c :: _ =>
    if isWordChar prev || !c.isUpper then none
    else
      if (l.takeWhile isNameClass).length < 2 then none
      else
        match l.drop (l.takeWhile isNameClass).length with
        | ':' :: s :: _ =>
          if pyIsSpace s then some ((l.takeWhile isNameClass).length + 2, s) else none
        | _ => none

/-- Pattern `\b[A-Z_]+\d*:\s`. -/
def tryMatchCaps (prev : Char) (l : List Char) : Option (ℕ × Char) :=
  if isWordChar prev then none
  else
    if (l.takeWhile (fun c => c.isUpper || c == '_')).length = 0 then none
    else
      match (l.drop (l.takeWhile (fun c => c.isUpper || c == '_')).length).drop
          ((l.drop (l.takeWhile (fun c => c.isUpper || c == '_')).length).takeWhile
            Char.isDigit).length with
      | ':' :: s :: _ =>
        if pyIsSpace s then
          some ((l.takeWhile (fun c => c.isUpper || c == '_')).length +
            ((l.drop (l.takeWhile (fun c => c.isUpper || c == '_')).length).takeWhile
              Char.isDigit).length + 2, s)
        else none
      | _ => none

/-- Pattern `\[[^\]]+\]\s*[A-Z]`. -/
def tryMatchBracket (_prev : Char) (l : List Char) : Option (ℕ × Char) :=
  match l with
  | '[' :: rest =>
    if (rest.takeWhile (fun c => c ≠ ']')).length = 0 then none
    else
      match rest.drop (rest.takeWhile (fun c => c ≠ ']')).length with
      | ']' :: rest2 =>
        match rest2.drop (rest2.takeWhile pyIsSpace).length with
        | u :: _ =>
          if u.isUpper then
            some (1 + (rest.takeWhile (fun c => c ≠ ']')).length + 1 +
              (rest2.takeWhile pyIsSpace).length + 1, u)
          else none
        | [] => none
      | _ => none
  | _ => none

/-- Pattern `>\s*[A-Z][a-zA-Z\s]+:`. -/
def tryMatchQuoted (_prev : Char) (l : List Char) : Option (ℕ × Char) :=
  match l with
  | '>' :: rest =>
    match rest.drop (rest.takeWhile pyIsSpace).length with
    | u :: _ =>
      if !u.isUpper then none
      else
        if ((rest.drop (rest.takeWhile pyIsSpace).length).takeWhile isNameClass).length
            < 2 then none
        else
          match (rest.drop (rest.takeWhile pyIsSpace).length).drop
              ((rest.drop (rest.takeWhile pyIsSpace).length).takeWhile
                isNameClass).length with
          | ':' :: _ =>
            some (1 + (rest.takeWhile pyIsSpace).length +
              ((rest.drop (rest.takeWhile pyIsSpace).length).takeWhile
                isNameClass).length + 1, ':')
          | _ => none
    | [] => none
  | _ => none

/-- `len(re.findall(pattern, text))` for one pattern. -/
def countMatches (tryM : Char → List Char → Option (ℕ × Char)) (text : List Char) : ℕ :=
  scanFindall tryM '\n' text.length text

/-- Non-blank line count, `len([line for line in text.split('\n') if line.strip()])`. -/
def totalNonBlankLines (text : List Char) : ℕ :=
  ((splitOnNl text).filter (fun l => ¬(pyStripL l).isEmpty)).length

/-- The file-name keywords of `_detect_meeting_transcript`. -/
def transcriptKeywords : List String :=
  ["transcript", "meeting", "call", "interview", "session", "recording"]

/-- `_detect_meeting_transcript(text, file_name)`: file-name keyword match,
or speaker-pattern matches on more than 20% of non-blank lines
(`matches / total > 0.2` is the exact rational comparison
`5 * matches > total`; see the header note on floats). -/
def detect_meeting_transcript (text : List Char) (file_name : String) : Bool :=
  (file_name ≠ "" && transcriptKeywords.any (fun k => pyInStr k (pyLower file_name))) ||
  (let speaker_matches := countMatches tryMatchName text + countMatches tryMatchCaps text +
    countMatches tryMatchBracket text + countMatches tryMatchQuoted text
   decide (0 < totalNonBlankLines text) &&
     decide (5 * speaker_matches > totalNonBlankLines text))

/-! ### Structure / conversation detectors (`_detect_structured_document`,
`_detect_conversational_content`)

These feed the second and third branches of `adaptive_chunk_text` (never
taken once transcript detection fires, which is what C7 exercises).  The
`re.MULTILINE` patterns are embedded with the same scan machinery; `^` holds
when the previous character is `'\n'` (sentinel at start). -/

/-- Suffix `\s+.+$` (MULTILINE) at a position: a whitespace run, then a
non-empty run of non-newline characters ending at a line end; when the
whitespace run reaches the end of the input, the regex backtracks to leave
a final non-newline whitespace run as the `.+`.  Returns consumed length. -/
def matchWsRest (l : List Char) : Option ℕ :=
  if (l.takeWhile pyIsSpace).length = 0 then none
  else
    match l.drop (l.takeWhile pyIsSpace).length with
    | [] =>
      if 2 ≤ (l.takeWhile pyIsSpace).length -
          ((l.takeWhile pyIsSpace).reverse.takeWhile (fun c => c = '\n')).length then
        some ((l.takeWhile pyIsSpace).length -
          ((l.takeWhile pyIsSpace).reverse.takeWhile (fun c => c = '\n')).length)
      else none
    | _ :: _ =>
      some ((l.takeWhile pyIsSpace).length +
        ((l.drop (l.takeWhile pyIsSpace).length).takeWhile (fun c => c ≠ '\n')).length)

/-- The consumed characters' last element, for resuming the scan. -/
def lastConsumed (l : List Char) (n : ℕ) : Char :=
  (l.take n).getLastD ' '

/-- Pattern `^#{1,6}\s+.+$` (MULTILINE). -/
def tryMatchHeader (prev : Char) (l : List Char) : Option (ℕ × Char) :=
  if prev ≠ '\n' then none
  else
    if 1 ≤ (l.takeWhile (fun c => c = '#')).length ∧
        (l.takeWhile (fun c => c = '#')).length ≤ 6 then
      match matchWsRest (l.drop (l.takeWhile (fun c => c = '#')).length) with
      | some r => some ((l.takeWhile (fun c => c = '#')).length + r,
          lastConsumed l ((l.takeWhile (fun c => c = '#')).length + r))
      | none => none
    else none

/-- Pattern `^\d+\.\s+.+$` (MULTILINE). -/
def tryMatchNumbered (prev : Char) (l : List Char) : Option (ℕ × Char) :=
  if prev ≠ '\n' then none
  else
    if 1 ≤ (l.takeWhile Char.isDigit).length ∧
        (l.drop (l.takeWhile Char.isDigit).length).headD ' ' = '.' then
      match matchWsRest (l.drop ((l.takeWhile Char.isDigit).length + 1)) with
      | some r => some ((l.takeWhile Char.isDigit).length + 1 + r,
          lastConsumed l ((l.takeWhile Char.isDigit).length + 1 + r))
      | none => none
    else none

/-- Pattern `^[-*+]\s+.+$` (MULTILINE). -/
def tryMatchBullet (prev : Char) (l : List Char) : Option (ℕ × Char) :=
  if prev ≠ '\n' then none
  else
    match l with
    | c :: rest =>
      if c = '-' ∨ c = '*' ∨ c = '+' then
        match matchWsRest rest with
        | some r => some (1 + r, lastConsumed l (1 + r))
        | none => none
      else none
    | [] => none

/-- Pattern `^[A-Z][A-Z\s]+$` (MULTILINE); the class contains `\n`, so the
greedy run backtracks to the last newline inside it when the run does not
reach the end of the input. -/
def tryMatchAllCaps (prev : Char) (l : List Char) : Option (ℕ × Char) :=
  if prev ≠ '\n' then none
  else
    match l with
    | c :: _ =>
      if ¬c.isUpper then none
      else
        if 2 ≤ (l.takeWhile (fun d => d.isUpper || pyIsSpace d)).length then
          if l.drop (l.takeWhile (fun d => d.isUpper || pyIsSpace d)).length = [] then
            some ((l.takeWhile (fun d => d.isUpper || pyIsSpace d)).length,
              lastConsumed l (l.takeWhile (fun d => d.isUpper || pyIsSpace d)).length)
          else
            match ((l.take (l.takeWhile (fun d => d.isUpper || pyIsSpace d)).length).reverse.findIdx?
                (fun d => d = '\n')) with
            | some ridx =>
              if 2 ≤ (l.takeWhile (fun d => d.isUpper || pyIsSpace d)).length - 1 - ridx then
                some ((l.takeWhile (fun d => d.isUpper || pyIsSpace d)).length - 1 - ridx,
                  lastConsumed l ((l.takeWhile (fun d => d.isUpper || pyIsSpace d)).length - 1 - ridx))
              else none
            | none => none
        else none
    | [] => none

/-- Pattern `^\s*\|.+\|\s*$` (MULTILINE), in-line reading: leading
whitespace, `|`, at least one character, a final `|` whose line remainder is
whitespace (the source regex could additionally satisfy `\s*$` across a
newline by backtracking to an earlier `|`; that corner is not modelled). -/
def tryMatchTableRow (prev : Char) (l : List Char) : Option (ℕ × Char) :=
  if prev ≠ '\n' then none
  else
    if (l.drop (l.takeWhile pyIsSpace).length).headD ' ' = '|' then
      -- the line content after the opening pipe
      match (((l.drop ((l.takeWhile pyIsSpace).length + 1)).takeWhile
          (fun c => c ≠ '\n')).reverse.findIdx? (fun c => c = '|')) with
      | some ridx =>
        if ((l.drop ((l.takeWhile pyIsSpace).length + 1)).takeWhile
              (fun c => c ≠ '\n')).length - 1 - ridx ≥ 1 ∧
            (((l.drop ((l.takeWhile pyIsSpace).length + 1)).takeWhile
              (fun c => c ≠ '\n')).drop
                (((l.drop ((l.takeWhile pyIsSpace).length + 1)).takeWhile
                  (fun c => c ≠ '\n')).length - ridx)).all pyIsSpace then
          some ((l.takeWhile pyIsSpace).length + 1 +
            ((l.drop ((l.takeWhile pyIsSpace).length + 1)).takeWhile
              (fun c => c ≠ '\n')).length,
            lastConsumed l ((l.takeWhile pyIsSpace).length + 1 +
              ((l.drop ((l.takeWhile pyIsSpace).length + 1)).takeWhile
                (fun c => c ≠ '\n')).length))
        else none
      | none => none
    else none

/-- `_detect_structured_document(text)`: structure-pattern matches on more
than 15% of non-blank lines (`matches / total > 0.15` as `20 * matches >
3 * total`). -/
def detect_structured_document (text : List Char) : Bool :=
  decide (0 < totalNonBlankLines text) &&
  decide (20 * (countMatches tryMatchHeader text + countMatches tryMatchNumbered text +
      countMatches tryMatchBullet text + countMatches tryMatchAllCaps text +
      countMatches tryMatchTableRow text) > 3 * totalNonBlankLines text)

/-- Pattern `\?\s*$` (no MULTILINE): at most one match, present exactly when
some `?` is followed only by whitespace. -/
def hasQmarkWsSuffix : List Char → Bool
  | [] => false
  | '?' :: rest => rest.all pyIsSpace || hasQmarkWsSuffix rest
  | _ :: rest => hasQmarkWsSuffix rest

/-- Case-insensitive literal prefix test (the literal is lowercase). -/
def ciPrefix : List Char → List Char → Bool
  | [], _ => true
  | _, [] => false
  | p :: ps, c :: cs => p == c.toLower && ciPrefix ps cs

/-- Alternation of case-insensitive literal words behind `\b` (and, when
`endBoundary` is set, before a trailing `\b`), as a scan matcher. -/
def tryMatchAltWords (alts : List (List Char)) (endBoundary : Bool)
    (prev : Char) (l : List Char) : Option (ℕ × Char) :=
  if isWordChar prev then none
  else
    match alts.find? (fun a => ciPrefix a l &&
        (!endBoundary || !isWordChar ((l.drop a.length).headD ' '))) with
    | some a => some (a.length, (l.take a.length).getLastD ' ')
    | none => none

/-- `_detect_conversational_content(text)`: question marks, Q/A markers and
discourse markers against total word count (`> 0.05` as `20 * matches >
words`). -/
def detect_conversational_content (text : List Char) : Bool :=
  decide (0 < (pyWordsAux text []).length) &&
  decide (20 * ((if hasQmarkWsSuffix text then 1 else 0) +
      countMatches (tryMatchAltWords ["q:".data, "a:".data, "question:".data,
        "answer:".data] false) text +
      countMatches (tryMatchAltWords ["well".data, "so".data, "actually".data,
        "basically".data, "you know".data] true) text +
      countMatches (tryMatchAltWords ["i think".data, "i believe".data,
        "in my opinion".data] true) text) >
    (pyWordsAux text []).length)

/-- A chunk of `adaptive_chunk_text`: the `content` string and the
`chunk_type` tag (strategy-specific metadata of the source dictionaries is
carried by the strategy-level structures). -/
structure AdaptiveChunk where
  content : List Char
  chunk_type : List Char
  deriving DecidableEq, Repr

/-- `re.match(header_pattern, line_stripped)` of `_chunk_structured_document`:
`^(#{1,6}\s+.+|[A-Z][A-Z\s]+|\d+\.\s+.+|[-*+]\s+.+)$` on a stripped line. -/
def isStructuredHeaderLine (l : List Char) : Bool :=
  (1 ≤ (l.takeWhile (fun c => c = '#')).length &&
    (l.takeWhile (fun c => c = '#')).length ≤ 6 &&
    pyIsSpace ((l.drop (l.takeWhile (fun c => c = '#')).length).headD 'x') &&
    2 ≤ (l.drop (l.takeWhile (fun c => c = '#')).length).length) ||
  ((l.headD ' ').isUpper && 2 ≤ l.length &&
    l.all (fun c => c.isUpper || pyIsSpace c)) ||
  (1 ≤ (l.takeWhile Char.isDigit).length &&
    (l.drop (l.takeWhile Char.isDigit).length).headD 'x' = '.' &&
    pyIsSpace ((l.drop ((l.takeWhile Char.isDigit).length + 1)).headD 'x') &&
    2 ≤ (l.drop ((l.takeWhile Char.isDigit).length + 1)).length) ||
  ((l.headD 'x' = '-' || l.headD 'x' = '*' || l.headD 'x' = '+') &&
    pyIsSpace (l.tail.headD 'x') && 2 ≤ l.tail.length)

/-- The line loop of `_chunk_structured_document` (state: current section
lines, its size counter, current header, emitted chunks). -/
def buildStructuredGo (min_chunk_size max_chunk_size : ℕ) :
    List (List Char) →
      List (List Char) × ℕ × List Char × List AdaptiveChunk →
        List AdaptiveChunk
  | [], (sect, _, _, chunks) =>
    if sect ≠ [] then chunks ++ [⟨joinNl sect, "structured_section".data⟩]
    else chunks
  | line :: rest, (sect, size, header, chunks) =>
    if isStructuredHeaderLine (pyStripL line) ∧ (pyStripL line).length < 100 then
      if sect ≠ [] ∧ min_chunk_size ≤ size then
        buildStructuredGo min_chunk_size max_chunk_size rest
          ([line], line.length, pyStripL line,
            chunks ++ [⟨joinNl sect, "structured_section".data⟩])
      else
        buildStructuredGo min_chunk_size max_chunk_size rest
          ([line], line.length, pyStripL line, chunks)
    else
      if max_chunk_size < size + line.length + 1 then
        buildStructuredGo min_chunk_size max_chunk_size rest
          ([], 0, [],
            chunks ++ [⟨joinNl (sect ++ [line]), "structured_section".data⟩])
      else
        buildStructuredGo min_chunk_size max_chunk_size rest
          (sect ++ [line], size + line.length + 1, header, chunks)

/-- `_chunk_structured_document(text, config)`. -/
def chunk_structured_document (text : List Char) (min_chunk_size max_chunk_size : ℕ) :
    List AdaptiveChunk :=
  match buildStructuredGo min_chunk_size max_chunk_size (splitOnNl text)
      ([], 0, [], []) with
  | [] => [⟨text, "structured_fallback".data⟩]
  | chunks => chunks

/-- Sentence splitting of `chunk_by_semantic_similarity`:
`re.split(r'(?<=[.!?])\s+(?=[A-Z])', text)` as a fuel scan. -/
def splitSentencesGo : ℕ → Char → List Char → List Char → List (List Char)
  | 0, _, l, acc => [acc.reverse ++ l]
  | _ + 1, _, [], acc => [acc.reverse]
  | fuel + 1, prev, c :: cs, acc =>
    if (prev = '.' ∨ prev = '!' ∨ prev = '?') ∧ pyIsSpace c ∧
        (((c :: cs).drop ((c :: cs).takeWhile pyIsSpace).length).headD ' ').isUpper then
      acc.reverse :: splitSentencesGo fuel
        (((c :: cs).takeWhile pyIsSpace).getLastD ' ')
        ((c :: cs).drop ((c :: cs).takeWhile pyIsSpace).length) []
    else splitSentencesGo fuel c cs (c :: acc)

/-- `[s.strip() for s in re.split(...) if s.strip()]` on `text.strip()`. -/
def splitSentences (text : List Char) : List (List Char) :=
  (((splitSentencesGo (pyStripL text).length ' ' (pyStripL text) []).map pyStripL).filter
    (fun s => ¬s.isEmpty))

/-- The peers absorbed into the chunk seeded at sentence `i`. -/
def semanticChosen (sentences : List (List Char)) (s : ℕ → ℕ → ℚ)
    (thr : ℚ) (max_chunk_size : ℕ) (i : ℕ) (used : List ℕ) : List ℕ :=
  ((((List.range sentences.length).filter
      (fun j => j ≠ i ∧ j ∉ used ∧ thr ≤ s i j)).map (fun j => (j, s i j))).mergeSort
    (fun a b => decide (b.2 ≤ a.2))).foldl
    (fun (st : List ℕ × ℕ) jp =>
      if st.2 + (sentences.getD jp.1 []).length + 1 ≤ max_chunk_size then
        (st.1 ++ [jp.1], st.2 + (sentences.getD jp.1 []).length + 1)
      else st)
    ([], (sentences.getD i []).length) |>.1

/-- The chunk seeded at sentence `i`. -/
def semanticChunkOf (sentences : List (List Char)) (s : ℕ → ℕ → ℚ)
    (thr : ℚ) (max_chunk_size : ℕ) (i : ℕ) (used : List ℕ) : AdaptiveChunk :=
  ⟨joinSpace (sentences.getD i [] ::
      (semanticChosen sentences s thr max_chunk_size i used).map
        (fun j => sentences.getD j [])),
    "semantic".data⟩

/-- The grouping loop of `chunk_by_semantic_similarity`: each unused
sentence greedily absorbs its most-similar unused peers (similarity ≥
threshold, descending, stable) while the character budget allows.  `s` is
the cosine-similarity matrix of the external embeddings. -/
def semanticGroupGo (sentences : List (List Char)) (s : ℕ → ℕ → ℚ) (thr : ℚ)
    (max_chunk_size : ℕ) : List ℕ → List ℕ → List AdaptiveChunk
  | [], _ => []
  | i :: is, used =>
    if i ∈ used then semanticGroupGo sentences s thr max_chunk_size is used
    else
      semanticChunkOf sentences s thr max_chunk_size i used ::
        semanticGroupGo sentences s thr max_chunk_size is
          (used ++ i :: semanticChosen sentences s thr max_chunk_size i used)

/-- `chunk_by_semantic_similarity(text, similarity_threshold,
max_chunk_size)`; `sim = none` models an embedding-service failure (the
`except` branch falls back to fixed slicing). -/
def chunk_by_semantic_similarity (text : List Char) (similarity_threshold : ℚ)
    (max_chunk_size : ℕ) (sim : Option (ℕ → ℕ → ℚ)) : List AdaptiveChunk :=
  if text = [] ∨ text.length < 100 then [⟨text, "small_text".data⟩]
  else
    if (splitSentences text).length < 2 then [⟨text, "single_sentence".data⟩]
    else
      match sim with
      | none =>
        (chunkSlicesGo max_chunk_size (max_chunk_size - 1)
            (removeCR text).length (removeCR text)).map
          (fun c => ⟨c, "fallback_semantic".data⟩)
      | some s =>
        semanticGroupGo (splitSentences text) s similarity_threshold max_chunk_size
          (List.range (splitSentences text).length) []

/-- The `adaptive_chunking` configuration slice (defaults of the source;
the caller merges `config['adaptive_chunking']` over them). -/
structure AdaptiveConfig where
  max_chunk_size : ℕ := 800
  speaker_overlap : ℕ := 1
  semantic_threshold : ℚ := mkRat 7 10
  min_chunk_size : ℕ := 100

/-- `adaptive_chunk_text(text, file_name, mime_type, config)`: first
matching shape detector wins; `mime_type` is accepted but never consulted by
the source either.  `sim` carries the external embedding service outcome for
the conversational branch. -/
def adaptive_chunk_text (text : List Char) (file_name : String)
    (mime_type : String) (sim : Option (ℕ → ℕ → ℚ)) (config : AdaptiveConfig) :
    List AdaptiveChunk :=
  if text = [] then []
  else if detect_meeting_transcript text file_name then
    (chunk_by_speaker text config.max_chunk_size config.speaker_overlap).map
      (fun c => ⟨speakerChunkContent c, c.chunk_type⟩)
  else if detect_structured_document text then
    chunk_structured_document text config.min_chunk_size config.max_chunk_size
  else if detect_conversational_content text then
    chunk_by_semantic_similarity text config.semantic_threshold
      config.max_chunk_size sim
  else
    (chunk_by_paragraphs_enhanced text config.max_chunk_size).map
      (fun c => ⟨paragraphChunkContent c, c.chunk_type⟩)

/-! ### C7: transcript detection selects speaker chunking

`goodLine` is the claim's "line matching the `Name: text` speaker pattern":
the detection pattern `\b[A-Z][a-zA-Z\s]+:\s` anchored at the line start
(previous character `'\n'`).  The chain below shows `re.findall` over the
whole text yields at least one match per good line, so a good-line ratio
above the threshold forces `_detect_meeting_transcript` to fire. -/

/-- A line matching the `Name: text` detection pattern at its start. -/
def goodLine (l : List Char) : Bool :=
  (tryMatchName '\n' l).isSome

/-- Good line starts in a suffix, threading the previous character: a
position opens a line exactly when its previous character is `'\n'`. -/
def gcount : Char → List Char → ℕ
  | _, [] => 0
  | prev, c :: cs =>
    (if prev = '\n' ∧ goodLine ((c :: cs).takeWhile (fun x => x ≠ '\n')) = true
      then 1 else 0) + gcount c cs

/-- `split('\n')` never returns the empty list. -/
theorem splitOnNl_ne_nil : ∀ l : List Char, splitOnNl l ≠ [] := by
  intro l
  cases l with
  | nil => simp [splitOnNl]
  | cons c rest =>
    by_cases h : c = '\n'
    · simp [splitOnNl, h]
    · simp only [splitOnNl, if_neg h]
      cases splitOnNl rest <;> simp

/-- Unfolding `split('\n')` on a non-newline head. -/
theorem splitOnNl_cons_ne (c : Char) (cs : List Char) (h : c ≠ '\n') :
    splitOnNl (c :: cs) =
      (c :: (splitOnNl cs).headD []) :: (splitOnNl cs).tail := by
  simp only [splitOnNl, if_neg h]
  cases hh : splitOnNl cs with
  | nil => exact absurd hh (splitOnNl_ne_nil cs)
  | cons a t => simp

/-- Taking while non-newline past a non-newline head. -/
theorem takeWhile_nl_cons (c : Char) (cs : List Char) (h : c ≠ '\n') :
    List.takeWhile (fun x => x ≠ '\n') (c :: cs) =
      c :: List.takeWhile (fun x => x ≠ '\n') cs := by
  rw [List.takeWhile_cons, if_pos (decide_eq_true h)]

/-- The head of `split('\n')` is the prefix before the first newline. -/
theorem splitOnNl_headD :
    ∀ l : List Char, (splitOnNl l).headD [] = l.takeWhile (fun x => x ≠ '\n') := by
  intro l
  induction l with
  | nil => simp [splitOnNl]
  | cons c cs ih =>
    by_cases h : c = '\n'
    · subst h
      rw [List.takeWhile_cons, if_neg (by simp)]
      simp [splitOnNl]
    · rw [splitOnNl_cons_ne c cs h, takeWhile_nl_cons c cs h]
      rw [List.headD_cons, ih]

/-- `gcount` counts exactly the good lines of `split('\n')` (for a
non-newline previous character, the first line's start lies before the
suffix and only the later lines are counted). -/
theorem gcount_splitOnNl :
    ∀ (l : List Char) (prev : Char),
      gcount prev l = if prev = '\n'
        then ((splitOnNl l).filter (fun x => goodLine x)).length
        else (((splitOnNl l).tail).filter (fun x => goodLine x)).length := by
  intro l
  induction l with
  | nil =>
    intro prev
    have hg : goodLine [] = false := rfl
    by_cases h : prev = '\n' <;> simp [gcount, splitOnNl, h, hg]
  | cons c cs ih =>
    intro prev
    by_cases hc : c = '\n'
    · subst hc
      have hg : goodLine [] = false := rfl
      have htw : List.takeWhile (fun x => x ≠ '\n') ('\n' :: cs) = [] := by
        rw [List.takeWhile_cons, if_neg (by simp)]
      have ihn := ih '\n'
      rw [if_pos rfl] at ihn
      by_cases h : prev = '\n' <;>
        simp [gcount, splitOnNl, h, htw, hg, ihn]
    · have hhead : c :: (splitOnNl cs).headD [] =
          List.takeWhile (fun x => x ≠ '\n') (c :: cs) := by
        rw [takeWhile_nl_cons c cs hc, splitOnNl_headD]
      have ihc := ih c
      rw [if_neg hc] at ihc
      by_cases h : prev = '\n'
      · subst h
        rw [show gcount '\n' (c :: cs) =
            (if ('\n' : Char) = '\n' ∧
                goodLine ((c :: cs).takeWhile (fun x => x ≠ '\n')) = true
              then 1 else 0) + gcount c cs from rfl]
        rw [ihc, if_pos rfl, splitOnNl_cons_ne c cs hc, List.filter_cons, hhead]
        by_cases hgl :
            goodLine (List.takeWhile (fun x => x ≠ '\n') (c :: cs)) = true
        · rw [if_pos ⟨rfl, hgl⟩, if_pos hgl, List.length_cons]
          omega
        · rw [if_neg (fun hq => hgl hq.2), if_neg hgl]
          omega
      · rw [show gcount prev (c :: cs) =
            (if prev = '\n' ∧
                goodLine ((c :: cs).takeWhile (fun x => x ≠ '\n')) = true
              then 1 else 0) + gcount c cs from rfl]
        rw [ihc, if_neg h, if_neg (fun hq => h hq.1),
          splitOnNl_cons_ne c cs hc, List.tail_cons]
        omega

/-- A greedy class run that stops inside `a` is unaffected by appending. -/
theorem takeWhile_append_left (p : Char → Bool) :
    ∀ a b : List Char, (a.takeWhile p).length < a.length →
      (a ++ b).takeWhile p = a.takeWhile p := by
  intro a
  induction a with
  | nil => intro b h; simp at h
  | cons x xs ih =>
    intro b h
    cases hx : p x with
    | true =>
      rw [List.cons_append, List.takeWhile_cons, if_pos hx,
        List.takeWhile_cons, if_pos hx]
      rw [List.takeWhile_cons, if_pos hx] at h
      simp only [List.length_cons] at h
      rw [ih b (by omega)]
    | false =>
      rw [List.cons_append, List.takeWhile_cons, if_neg (by simp [hx]),
        List.takeWhile_cons, if_neg (by simp [hx])]

/-- A failing element bounds the class run strictly. -/
theorem takeWhile_length_lt_of_mem (p : Char → Bool) :
    ∀ (a : List Char) (x : Char), x ∈ a → p x = false →
      (a.takeWhile p).length < a.length := by
  intro a
  induction a with
  | nil => intro x hx; simp at hx
  | cons y ys ih =>
    intro x hx hpx
    cases hy : p y with
    | false => rw [List.takeWhile_cons, if_neg (by simp [hy])]; simp
    | true =>
      rw [List.takeWhile_cons, if_pos hy]
      rcases List.mem_cons.mp hx with h | h
      · subst h; rw [hy] at hpx; cases hpx
      · simp only [List.length_cons]
        have := ih x h hpx
        omega

/-- A class run over `xs ++ y :: ys` with `xs` inside the class and `y`
outside it is exactly `xs`. -/
theorem takeWhile_append_stop (p : Char → Bool) :
    ∀ (xs : List Char) (y : Char) (ys : List Char),
      (∀ x ∈ xs, p x = true) → p y = false →
        (xs ++ y :: ys).takeWhile p = xs := by
  intro xs
  induction xs with
  | nil =>
    intro y ys _ hy
    rw [List.nil_append, List.takeWhile_cons, if_neg (by simp [hy])]
  | cons x xs ih =>
    intro y ys hall hy
    rw [List.cons_append, List.takeWhile_cons,
      if_pos (hall x (List.mem_cons_self x xs)),
      ih y ys (fun z hz => hall z (List.mem_cons_of_mem x hz)) hy]

/-- Inversion of a successful `\b[A-Z][a-zA-Z\s]+:\s` match: the input
splits as the class run, the colon, the matched whitespace character and
the remainder, with the bookkeeping the scan relies on. -/
theorem tryMatchName_some_inv (prev : Char) (l : List Char) (n : ℕ)
    (lastc : Char) (h : tryMatchName prev l = some (n, lastc)) :
    ∃ s tail, l = l.takeWhile isNameClass ++ ':' :: s :: tail ∧
      2 ≤ (l.takeWhile isNameClass).length ∧
      n = (l.takeWhile isNameClass).length + 2 ∧ lastc = s ∧
      pyIsSpace s = true ∧
      ((l.takeWhile isNameClass).headD ' ').isUpper = true ∧
      isWordChar prev = false := by
  cases l with
  | nil => simp [tryMatchName] at h
  | cons c cs =>
    rw [tryMatchName] at h
    by_cases hguard : (isWordChar prev || !c.isUpper) = true
    · rw [if_pos hguard] at h; cases h
    · rw [if_neg hguard] at h
      simp only [Bool.or_eq_true, Bool.not_eq_true', not_or] at hguard
      obtain ⟨hw, hup⟩ := hguard
      have hw' : isWordChar prev = false := by simpa using hw
      have hup' : c.isUpper = true := by simpa using hup
      by_cases hlen :
          (List.takeWhile isNameClass (c :: cs)).length < 2
      · rw [if_pos hlen] at h; cases h
      · rw [if_neg hlen] at h
        cases hdrop : List.drop (List.takeWhile isNameClass (c :: cs)).length
            (c :: cs) with
        | nil => rw [hdrop] at h; cases h
        | cons d rest =>
          rw [hdrop] at h
          by_cases hd : d = ':'
          · subst hd
            cases rest with
            | nil => simp at h
            | cons s rest2 =>
              simp only at h
              by_cases hs : pyIsSpace s = true
              · rw [if_pos hs] at h
                injection h with h1
                injection h1 with hn hl
                have hnc : isNameClass c = true := by
                  simp [isNameClass, Char.isAlpha, hup']
                refine ⟨s, rest2, ?_, by omega, hn.symm, hl.symm, hs, ?_, hw'⟩
                · conv_lhs => rw [← List.take_append_drop
                    (List.takeWhile isNameClass (c :: cs)).length (c :: cs)]
                  rw [hdrop,
                    ← List.prefix_iff_eq_take.mp (List.takeWhile_prefix _)]
                · rw [show List.takeWhile isNameClass (c :: cs) =
                      c :: List.takeWhile isNameClass cs from by
                    rw [List.takeWhile_cons, if_pos hnc], List.headD_cons]
                  exact hup'
              · rw [if_neg hs] at h; cases h
          · have hred : (match ((d :: rest) : List Char) with
                | ':' :: s :: _ =>
                  if pyIsSpace s = true then
                    some ((List.takeWhile isNameClass (c :: cs)).length + 2, s)
                  else none
                | _ => none) = none := by
              cases rest with
              | nil =>
                split
                · rename_i s' rest' heqm
                  injection heqm with h1 h2
                  exact absurd h1 hd
                · rfl
              | cons e rest2 =>
                split
                · rename_i s' rest' heqm
                  injection heqm with h1 h2
                  exact absurd h1 hd
                · rfl
            rw [hred] at h; cases h

/-- Hitting the start of a good line, the detector matches within the
full remaining text. -/
theorem tryMatchName_at_goodLine (l : List Char)
    (h : goodLine (l.takeWhile (fun x => x ≠ '\n')) = true) :
    (tryMatchName '\n' l).isSome = true := by
  rw [goodLine, Option.isSome_iff_exists] at h
  obtain ⟨⟨n, lastc⟩, hm⟩ := h
  obtain ⟨s, tail, heq, hlen, hn, hlast, hsp, hup, hw⟩ :=
    tryMatchName_some_inv '\n' _ n lastc hm
  generalize hrun : (List.takeWhile (fun x => x ≠ '\n') l).takeWhile
      isNameClass = run at heq hlen hup
  have hall : ∀ x ∈ run, isNameClass x = true := by
    intro x hx
    rw [← hrun] at hx
    exact List.mem_takeWhile_imp hx
  have hldecomp : l = run ++ ':' :: s ::
      (tail ++ l.dropWhile (fun x => x ≠ '\n')) := by
    conv_lhs => rw [← List.takeWhile_append_dropWhile
      (p := fun x => x ≠ '\n') (l := l)]
    rw [heq]
    simp [List.append_assoc]
  have htake : l.takeWhile isNameClass = run := by
    conv_lhs => rw [hldecomp]
    exact takeWhile_append_stop isNameClass run ':' _ hall (by decide)
  have hdropl : l.drop (l.takeWhile isNameClass).length = ':' :: s ::
      (tail ++ l.dropWhile (fun x => x ≠ '\n')) := by
    rw [htake]
    conv_lhs => rw [hldecomp]
    have : run.length = (run : List Char).length := rfl
    rw [show (run ++ ':' :: s :: (tail ++ l.dropWhile (fun x => x ≠ '\n'))) =
        run ++ ':' :: s :: (tail ++ l.dropWhile (fun x => x ≠ '\n')) from rfl]
    exact List.drop_left run _
  cases hrc : run with
  | nil => rw [hrc] at hlen; simp at hlen
  | cons rc rrest =>
    obtain ⟨cs, hlcs⟩ : ∃ cs, l = rc :: cs := by
      rw [hldecomp, hrc]; exact ⟨_, rfl⟩
    rw [hlcs] at htake hdropl
    have hupc : rc.isUpper = true := by
      rw [hrc] at hup
      simpa using hup
    rw [hlcs, tryMatchName]
    rw [if_neg (by rw [hupc]; decide)]
    rw [if_neg (by rw [htake]; omega)]
    rw [hdropl]
    show (if pyIsSpace s = true then
      some ((List.takeWhile isNameClass (rc :: cs)).length + 2, s)
      else none).isSome = true
    rw [if_pos hsp]
    rfl

/-- Threading `gcount` through a newline-free segment: no position inside
opens a line, and the previous character at the end is the segment's last. -/
theorem gcount_append_no_nl :
    ∀ (xs : List Char) (prev : Char) (rest : List Char), prev ≠ '\n' →
      (∀ x ∈ xs, x ≠ '\n') →
      gcount prev (xs ++ rest) = gcount (xs.getLastD prev) rest := by
  intro xs
  induction xs with
  | nil => intro prev rest _ _; rfl
  | cons x xs ih =>
    intro prev rest hprev hall
    rw [List.cons_append,
      show gcount prev (x :: (xs ++ rest)) =
        (if prev = '\n' ∧
            goodLine ((x :: (xs ++ rest)).takeWhile (fun c => c ≠ '\n')) = true
          then 1 else 0) + gcount x (xs ++ rest) from rfl,
      if_neg (fun hq => hprev hq.1),
      ih x rest (hall x (List.mem_cons_self x xs))
        (fun z hz => hall z (List.mem_cons_of_mem x hz))]
    rw [List.getLastD_cons]
    omega

/-- The detector cannot match inside a colon-free all-class segment. -/
theorem tryMatchName_none_of_all_class (prev : Char) (T : List Char)
    (h : ∀ x ∈ T, isNameClass x = true) : tryMatchName prev T = none := by
  cases T with
  | nil => rfl
  | cons c cs =>
    rw [tryMatchName]
    by_cases hguard : (isWordChar prev || !c.isUpper) = true
    · rw [if_pos hguard]
    · rw [if_neg hguard]
      have hself : List.takeWhile isNameClass (c :: cs) = c :: cs := by
        rw [List.takeWhile_eq_self_iff]
        exact h
      by_cases hlen : (List.takeWhile isNameClass (c :: cs)).length < 2
      · rw [if_pos hlen]
      · rw [if_neg hlen, hself, List.drop_length]

/-- One match pays for at most one good line start: the consumed region
`run ++ ": "` contains at most one position opening a good line (a good
line needs the colon, and the class run holds none). -/
theorem gcount_match_le :
    ∀ (run : List Char), (∀ x ∈ run, isNameClass x = true) →
      ∀ (prev s : Char) (tail : List Char),
        gcount prev (run ++ ':' :: s :: tail) ≤ 1 + gcount s tail := by
  intro run
  induction run with
  | nil =>
    intro _ prev s tail
    rw [List.nil_append,
      show gcount prev (':' :: s :: tail) =
        (if prev = '\n' ∧
            goodLine ((':' :: s :: tail).takeWhile (fun c => c ≠ '\n')) = true
          then 1 else 0) + gcount ':' (s :: tail) from rfl]
    have hgl : goodLine ((':' :: s :: tail).takeWhile (fun c => c ≠ '\n')) =
        false := by
      rw [List.takeWhile_cons, if_pos (by decide)]
      rw [goodLine, tryMatchName]
      rw [if_pos (by decide)]
      rfl
    rw [if_neg (fun hq => by rw [hgl] at hq; cases hq.2),
      show gcount ':' (s :: tail) =
        (if (':' : Char) = '\n' ∧
            goodLine ((s :: tail).takeWhile (fun c => c ≠ '\n')) = true
          then 1 else 0) + gcount s tail from rfl,
      if_neg (fun hq => by cases hq.1)]
    omega
  | cons c run ih =>
    intro hall prev s tail
    have hcclass : isNameClass c = true := hall c (List.mem_cons_self c run)
    have hrunclass : ∀ x ∈ run, isNameClass x = true :=
      fun z hz => hall z (List.mem_cons_of_mem c hz)
    rw [List.cons_append,
      show gcount prev (c :: (run ++ ':' :: s :: tail)) =
        (if prev = '\n' ∧
            goodLine ((c :: (run ++ ':' :: s :: tail)).takeWhile
              (fun x => x ≠ '\n')) = true
          then 1 else 0) + gcount c (run ++ ':' :: s :: tail) from rfl]
    by_cases hq : prev = '\n' ∧
        goodLine ((c :: (run ++ ':' :: s :: tail)).takeWhile
          (fun x => x ≠ '\n')) = true
    · rw [if_pos hq]
      have hnonl : ∀ x ∈ c :: run, x ≠ '\n' := by
        intro x hx hxnl
        subst hxnl
        have hlt : ((c :: run).takeWhile (fun z => z ≠ '\n')).length <
            (c :: run).length :=
          takeWhile_length_lt_of_mem _ (c :: run) '\n' hx (by simp)
        have htw : ((c :: run) ++ ':' :: s :: tail).takeWhile
            (fun z => z ≠ '\n') =
            (c :: run).takeWhile (fun z => z ≠ '\n') :=
          takeWhile_append_left _ _ _ hlt
        have hgl := hq.2
        rw [List.cons_append] at htw
        rw [htw] at hgl
        have hsub : ∀ x ∈ (c :: run).takeWhile (fun z => z ≠ '\n'),
            isNameClass x = true := by
          intro z hz
          exact hall z ((List.takeWhile_prefix _).subset hz)
        rw [goodLine, tryMatchName_none_of_all_class '\n' _ hsub] at hgl
        cases hgl
      have hassoc : run ++ ':' :: s :: tail = (run ++ [':']) ++ s :: tail := by
        simp
      rw [hassoc, gcount_append_no_nl (run ++ [':']) c (s :: tail)
        (hnonl c (List.mem_cons_self c run))
        (by
          intro z hz
          rcases List.mem_append.mp hz with hz | hz
          · exact hnonl z (List.mem_cons_of_mem c hz)
          · simp only [List.mem_singleton] at hz
            subst hz
            decide)]
      rw [List.getLastD_concat,
        show gcount ':' (s :: tail) =
          (if (':' : Char) = '\n' ∧
              goodLine ((s :: tail).takeWhile (fun x => x ≠ '\n')) = true
            then 1 else 0) + gcount s tail from rfl,
        if_neg (fun hq2 => by cases hq2.1)]
      omega
    · rw [if_neg hq]
      have := ih hrunclass c s tail
      omega

/-- A successful match advances and costs at most one good line. -/
theorem gcount_le_of_match (prev : Char) (l : List Char) (n : ℕ)
    (lastc : Char) (h : tryMatchName prev l = some (n, lastc)) :
    gcount prev l ≤ 1 + gcount lastc (l.drop n) ∧ 1 ≤ n := by
  obtain ⟨s, tail, heq, hlen, hn, hlast, hsp, hup, hw⟩ :=
    tryMatchName_some_inv prev l n lastc h
  have hall : ∀ x ∈ l.takeWhile isNameClass, isNameClass x = true :=
    fun x hx => List.mem_takeWhile_imp hx
  have hdrop : l.drop n = tail := by
    conv_lhs => rw [heq]
    rw [hn,
      show l.takeWhile isNameClass ++ ':' :: s :: tail =
        (l.takeWhile isNameClass ++ [':', s]) ++ tail from by simp,
      show (l.takeWhile isNameClass).length + 2 =
        (l.takeWhile isNameClass ++ [':', s]).length from by simp]
    exact List.drop_left _ _
  constructor
  · conv_lhs => rw [heq]
    rw [hdrop, hlast]
    exact gcount_match_le _ hall prev s tail
  · omega

/-- The scan finds at least one match per good line. -/
theorem scanFindall_ge_gcount :
    ∀ (fuel : ℕ) (l : List Char) (prev : Char), l.length ≤ fuel →
      gcount prev l ≤ scanFindall tryMatchName prev fuel l := by
  intro fuel
  induction fuel with
  | zero =>
    intro l prev h
    rw [Nat.le_zero, List.length_eq_zero] at h
    subst h
    exact Nat.le_refl 0
  | succ fuel ih =>
    intro l prev h
    cases l with
    | nil => exact Nat.le_refl 0
    | cons c cs =>
      cases hm : tryMatchName prev (c :: cs) with
      | none =>
        rw [show scanFindall tryMatchName prev (fuel + 1) (c :: cs) =
            (match tryMatchName prev (c :: cs) with
              | some (n, lastc) =>
                1 + scanFindall tryMatchName lastc fuel ((c :: cs).drop n)
              | none => scanFindall tryMatchName c fuel cs) from rfl, hm]
        rw [show gcount prev (c :: cs) =
          (if prev = '\n' ∧
              goodLine ((c :: cs).takeWhile (fun x => x ≠ '\n')) = true
            then 1 else 0) + gcount c cs from rfl]
        rw [if_neg (fun hq => by
          have := tryMatchName_at_goodLine (c :: cs) (hq.1 ▸ hq.2)
          rw [hq.1] at hm
          rw [hm] at this
          cases this)]
        have hcs : cs.length ≤ fuel := by
          simp only [List.length_cons] at h
          omega
        have := ih cs c hcs
        show 0 + gcount c cs ≤ scanFindall tryMatchName c fuel cs
        omega
      | some nl =>
        obtain ⟨n, lastc⟩ := nl
        rw [show scanFindall tryMatchName prev (fuel + 1) (c :: cs) =
            (match tryMatchName prev (c :: cs) with
              | some (n, lastc) =>
                1 + scanFindall tryMatchName lastc fuel ((c :: cs).drop n)
              | none => scanFindall tryMatchName c fuel cs) from rfl, hm]
        obtain ⟨hle, hn1⟩ := gcount_le_of_match prev (c :: cs) n lastc hm
        have hlen : ((c :: cs).drop n).length ≤ fuel := by
          rw [List.length_drop]
          simp only [List.length_cons] at h ⊢
          omega
        have := ih ((c :: cs).drop n) lastc hlen
        show gcount prev (c :: cs) ≤
          1 + scanFindall tryMatchName lastc fuel ((c :: cs).drop n)
        omega

/-- `re.findall` of the name pattern counts at least the good lines. -/
theorem countMatches_ge_goodLines (text : List Char) :
    ((splitOnNl text).filter (fun l => goodLine l)).length ≤
      countMatches tryMatchName text := by
  have h1 := scanFindall_ge_gcount text.length text '\n' (Nat.le_refl _)
  have h2 := gcount_splitOnNl text '\n'
  rw [if_pos rfl] at h2
  rw [countMatches, ← h2]
  exact h1

/-- The turn loop invariant: a turn is already recorded, or the pending
turn will flush (truthy speaker and non-empty text). -/
def TurnInv (st : TurnState) : Prop :=
  st.turns ≠ [] ∨
    ∃ sp, st.current_speaker = some sp ∧ sp ≠ [] ∧ st.current_text ≠ []

/-- The invariant guarantees the final flush yields a turn. -/
theorem flushTurn_ne_nil (st : TurnState) (h : TurnInv st) :
    flushTurn st ≠ [] := by
  rcases h with h | ⟨sp, hsp, hne, htext⟩
  · rw [flushTurn]
    cases hcs : st.current_speaker with
    | none => exact h
    | some sp =>
      show (if sp ≠ [] ∧ st.current_text ≠ [] then
        st.turns ++ [⟨sp, pyStripL (joinSpace st.current_text)⟩]
        else st.turns) ≠ []
      by_cases hc : sp ≠ [] ∧ st.current_text ≠ []
      · rw [if_pos hc]; simp
      · rw [if_neg hc]; exact h
  · rw [flushTurn, hsp]
    show (if sp ≠ [] ∧ st.current_text ≠ [] then
      st.turns ++ [⟨sp, pyStripL (joinSpace st.current_text)⟩]
      else st.turns) ≠ []
    rw [if_pos ⟨hne, htext⟩]
    simp

/-- A blank line leaves the state unchanged. -/
theorem turnsStep_blank (st : TurnState) (l : List Char)
    (h : (pyStripL l).isEmpty = true) : turnsStep st l = st := by
  simp [turnsStep, h]

/-- A line matched by a speaker pattern flushes and opens a new turn. -/
theorem turnsStep_match (st : TurnState) (l sp txt : List Char)
    (h : matchSpeakerLine (pyStripL l) = some (sp, txt)) :
    turnsStep st l = ⟨some sp, [txt], flushTurn st⟩ := by
  have hne : (pyStripL l).isEmpty = false := by
    cases hh : pyStripL l with
    | nil =>
      rw [hh, show matchSpeakerLine [] = none from by decide] at h
      cases h
    | cons a b => rfl
  simp [turnsStep, hne, h]

/-- An unmatched non-blank line with pending text is appended to it. -/
theorem turnsStep_cont (st : TurnState) (l : List Char)
    (hb : (pyStripL l).isEmpty = false)
    (hm : matchSpeakerLine (pyStripL l) = none)
    (hct : st.current_text ≠ []) :
    turnsStep st l =
      ⟨st.current_speaker, st.current_text ++ [pyStripL l], st.turns⟩ := by
  simp [turnsStep, hb, hm, hct]

/-- One line of the loop preserves the invariant. -/
theorem turnsStep_inv (st : TurnState) (l : List Char) (h : TurnInv st) :
    TurnInv (turnsStep st l) := by
  by_cases hblank : (pyStripL l).isEmpty = true
  · rw [turnsStep_blank st l hblank]; exact h
  · have hb : (pyStripL l).isEmpty = false := by simpa using hblank
    cases hm : matchSpeakerLine (pyStripL l) with
    | some p =>
      obtain ⟨sp, txt⟩ := p
      rw [turnsStep_match st l sp txt hm]
      exact Or.inl (flushTurn_ne_nil st h)
    | none =>
      by_cases hct : st.current_text = []
      · cases hcs : st.current_speaker with
        | none =>
          have heq : turnsStep st l =
              ⟨some ("Unknown Speaker".data), [pyStripL l], st.turns⟩ := by
            simp [turnsStep, hb, hm, hct, hcs]
          rw [heq]
          exact Or.inr ⟨_, rfl, by decide, by simp⟩
        | some s =>
          cases s with
          | nil =>
            have heq : turnsStep st l =
                ⟨some ("Unknown Speaker".data), [pyStripL l], st.turns⟩ := by
              simp [turnsStep, hb, hm, hct, hcs]
            rw [heq]
            exact Or.inr ⟨_, rfl, by decide, by simp⟩
          | cons a as =>
            have heq : turnsStep st l =
                ⟨some (a :: as), [pyStripL l], st.turns⟩ := by
              simp [turnsStep, hb, hm, hct, hcs]
            rw [heq]
            exact Or.inr ⟨a :: as, rfl, by simp, by simp⟩
      · rw [turnsStep_cont st l hb hm hct]
        rcases h with h | ⟨sp, hsp, hne, _⟩
        · exact Or.inl h
        · exact Or.inr ⟨sp, hsp, hne, by simp⟩

/-- The whole loop preserves the invariant. -/
theorem foldl_turnsStep_inv :
    ∀ (L : List (List Char)) (st : TurnState), TurnInv st →
      TurnInv (L.foldl turnsStep st) := by
  intro L
  induction L with
  | nil => intro st h; exact h
  | cons x xs ih =>
    intro st h
    rw [List.foldl_cons]
    exact ih _ (turnsStep_inv st x h)

/-- If some line is recognised by the chunker's speaker patterns with a
non-empty (truthy) speaker, turn extraction yields at least one turn. -/
theorem extract_turns_ne_nil (text l sp txt : List Char)
    (hmem : l ∈ splitOnNl text)
    (hsp : matchSpeakerLine (pyStripL l) = some (sp, txt)) (hne : sp ≠ []) :
    extract_turns text ≠ [] := by
  obtain ⟨L1, L2, hsplit⟩ := List.append_of_mem hmem
  rw [extract_turns, hsplit, List.foldl_append, List.foldl_cons]
  apply flushTurn_ne_nil
  apply foldl_turnsStep_inv
  rw [turnsStep_match _ l sp txt hsp]
  exact Or.inr ⟨sp, rfl, hne, by simp⟩

/-- Every chunk the speaker loop emits is tagged `speaker_based`. -/
theorem buildSpeakerGo_types (turns : List Turn) (mx ov : ℕ) :
    ∀ (ts : List Turn) (i : ℕ) (acc : SpeakerAcc),
      (∀ c ∈ acc.chunks, c.chunk_type = "speaker_based".data) →
      ∀ c ∈ buildSpeakerGo turns mx ov i ts acc,
        c.chunk_type = "speaker_based".data := by
  intro ts
  induction ts with
  | nil =>
    intro i acc hacc c hc
    simp only [buildSpeakerGo] at hc
    by_cases hcc : acc.current_chunk = []
    · rw [if_pos hcc] at hc
      exact hacc c hc
    · rw [if_neg hcc] at hc
      rcases List.mem_append.mp hc with h | h
      · exact hacc c h
      · simp only [List.mem_singleton] at h
        subst h
        rfl
  | cons t ts ih =>
    intro i acc hacc c hc
    simp only [buildSpeakerGo] at hc
    by_cases hcond : acc.current_size + (renderTurn t).length > mx ∧
        acc.current_chunk ≠ []
    · rw [if_pos hcond] at hc
      refine ih (i + 1) _ ?_ c hc
      intro d hd
      dsimp only at hd
      rcases List.mem_append.mp hd with h | h
      · exact hacc d h
      · simp only [List.mem_singleton] at h
        subst h
        rfl
    · rw [if_neg hcond] at hc
      refine ih (i + 1) _ ?_ c hc
      intro d hd
      dsimp only at hd
      exact hacc d hd

/-- With at least one extracted turn, `chunk_by_speaker` emits only
`speaker_based` chunks (no fallback). -/
theorem chunk_by_speaker_types (text : List Char) (mx ov : ℕ)
    (ht : extract_turns text ≠ []) :
    ∀ c ∈ chunk_by_speaker text mx ov, c.chunk_type = "speaker_based".data := by
  intro c hc
  have htext : text ≠ [] := by
    intro h
    subst h
    exact ht (by decide)
  simp only [chunk_by_speaker, if_neg htext] at hc
  rw [if_neg ht] at hc
  refine buildSpeakerGo_types _ mx ov _ 0 _ ?_ c hc
  intro d hd
  simp at hd

/-- Good lines at 30% of non-blank lines put the findall ratio over the
20% detection threshold. -/
theorem detect_of_goodLines (text : List Char) (file_name : String)
    (hgood : 3 * totalNonBlankLines text ≤
      10 * ((splitOnNl text).filter (fun l => goodLine l)).length)
    (hpos : 0 < totalNonBlankLines text) :
    detect_meeting_transcript text file_name = true := by
  have h1 := countMatches_ge_goodLines text
  rw [detect_meeting_transcript]
  dsimp only
  rw [Bool.or_eq_true]
  refine Or.inr ?_
  rw [Bool.and_eq_true, decide_eq_true_eq, decide_eq_true_eq]
  exact ⟨hpos, by omega⟩

/-- C7 counterexample input: the bracketed label `[  ]` is recognised by
the chunker's third speaker pattern but its name strips to the empty
(falsy) string, and the later detector-matching line `Ab: ` is treated as
a continuation, so no turn is ever flushed. -/
def c7bad : List Char := "[  ] Alpha\nAb: ".data

/-- C7 witness input: two plain `Name: text` speaker lines. -/
def c7good : List Char := "John: hi\nMary: yo".data

/-- C7, counterexample: in `c7bad`, half of the non-blank lines match the
`Name: text` detection pattern (over the 30% premise), the transcript
detector fires and speaker chunking is selected, yet the emitted chunk is
a `fallback` chunk, not `speaker_based`: turn extraction ends with the
falsy speaker left by the all-space bracketed label. -/
theorem claim_C7_counterexample :
    (3 * totalNonBlankLines c7bad ≤
        10 * ((splitOnNl c7bad).filter (fun l => goodLine l)).length ∧
      0 < totalNonBlankLines c7bad) ∧
    detect_meeting_transcript c7bad "" = true ∧
    (∃ ch ∈ adaptive_chunk_text c7bad "" "" none ⟨800, 1, mkRat 7 10, 100⟩,
      ch.chunk_type ≠ "speaker_based".data) := by
  decide

/-- C7, amended: for every text in which at least 30% of non-blank lines
match the `Name: text` detection pattern at their start, adaptive chunking
classifies the document as a meeting transcript and selects speaker-turn
chunking; and provided some line is also recognised by the chunker's own
speaker-label patterns with a non-empty speaker name (e.g. any standard
`John Doe: text` line), every emitted chunk carries chunk_type
`speaker_based`. -/
theorem claim_C7_amended (text : List Char) (file_name : String)
    (mime_type : String) (sim : Option (ℕ → ℕ → ℚ)) (config : AdaptiveConfig)
    (hgood : 3 * totalNonBlankLines text ≤
      10 * ((splitOnNl text).filter (fun l => goodLine l)).length)
    (hpos : 0 < totalNonBlankLines text)
    (hspk : ∃ l ∈ splitOnNl text, ∃ sp txt,
      matchSpeakerLine (pyStripL l) = some (sp, txt) ∧ sp ≠ []) :
    detect_meeting_transcript text file_name = true ∧
    adaptive_chunk_text text file_name mime_type sim config =
      (chunk_by_speaker text config.max_chunk_size config.speaker_overlap).map
        (fun c => ⟨speakerChunkContent c, c.chunk_type⟩) ∧
    ∀ ch ∈ adaptive_chunk_text text file_name mime_type sim config,
      ch.chunk_type = "speaker_based".data := by
  have hdet := detect_of_goodLines text file_name hgood hpos
  have htext : text ≠ [] := fun h => absurd (h ▸ hpos) (by decide)
  have hadapt : adaptive_chunk_text text file_name mime_type sim config =
      (chunk_by_speaker text config.max_chunk_size config.speaker_overlap).map
        (fun c => ⟨speakerChunkContent c, c.chunk_type⟩) := by
    rw [adaptive_chunk_text, if_neg htext, if_pos hdet]
  obtain ⟨l, hmem, sp, txt, hm, hne⟩ := hspk
  have hturns := extract_turns_ne_nil text l sp txt hmem hm hne
  refine ⟨hdet, hadapt, ?_⟩
  intro ch hch
  rw [hadapt] at hch
  obtain ⟨c, hc, hceq⟩ := List.mem_map.mp hch
  rw [← hceq]
  exact chunk_by_speaker_types text _ _ hturns c hc

/-- C7 witness: the two-line transcript `c7good` satisfies the amended
hypotheses and the conclusion follows by applying the theorem. -/
theorem claim_C7_witness :
    (3 * totalNonBlankLines c7good ≤
        10 * ((splitOnNl c7good).filter (fun l => goodLine l)).length ∧
      0 < totalNonBlankLines c7good ∧
      (∃ l ∈ splitOnNl c7good, ∃ sp txt,
        matchSpeakerLine (pyStripL l) = some (sp, txt) ∧ sp ≠ [])) ∧
    (detect_meeting_transcript c7good "notes" = true ∧
      adaptive_chunk_text c7good "notes" "text/plain" none
          ⟨800, 1, mkRat 7 10, 100⟩ =
        (chunk_by_speaker c7good 800 1).map
          (fun c => ⟨speakerChunkContent c, c.chunk_type⟩) ∧
      ∀ ch ∈ adaptive_chunk_text c7good "notes" "text/plain" none
          ⟨800, 1, mkRat 7 10, 100⟩,
        ch.chunk_type = "speaker_based".data) :=
  ⟨⟨by decide, by decide,
      ⟨"John: hi".data, by decide, "John".data, "hi".data, by decide,
        by decide⟩⟩,
    claim_C7_amended c7good "notes" "text/plain" none ⟨800, 1, mkRat 7 10, 100⟩
      (by decide) (by decide)
      ⟨"John: hi".data, by decide, "John".data, "hi".data, by decide,
        by decide⟩⟩

/-! ### C9: the `_parse_insights_json` degradation ladder

`json.loads` is embedded as a fuel-indexed recursive-descent parser over a
JSON value type (`Json`); the fuel is generous for every input the claims
touch, and both hypotheses and conclusions are phrased through the same
`jsonParse`, so no fuel-sufficiency argument is needed.  The non-finite
literals `NaN`/`Infinity` (accepted by Python) are outside the rational
model and treated as parse failures; string escapes are handled, with
`\uXXXX` mapped through `Char.ofNat` (surrogate pairing not modelled). -/

/-- A parsed JSON value (`json.loads` result). -/
inductive Json where
  | null : Json
  | bool (b : Bool) : Json
  | num (q : ℚ) : Json
  | str (s : List Char) : Json
  | arr (xs : List Json) : Json
  | obj (ms : List (List Char × Json)) : Json

/-- JSON inter-token whitespace (space, tab, newline, carriage return). -/
def jsonWsChar (c : Char) : Bool :=
  c = ' ' ∨ c = '\t' ∨ c = '\n' ∨ c = '\r'

/-- Skip JSON whitespace. -/
def jsonSkipWs (l : List Char) : List Char :=
  l.dropWhile jsonWsChar

/-- Decimal digits to a natural number. -/
def digitsToNat (ds : List Char) : ℕ :=
  ds.foldl (fun a c => a * 10 + (c.toNat - 48)) 0

/-- One hexadecimal digit. -/
def parseHexDigit (c : Char) : Option ℕ :=
  if c.isDigit then some (c.toNat - 48)
  else if 'a' ≤ c ∧ c ≤ 'f' then some (c.toNat - 87)
  else if 'A' ≤ c ∧ c ≤ 'F' then some (c.toNat - 55)
  else none

/-- JSON string body after the opening quote: returns the decoded content
and the input following the closing quote.  Raw control characters are
rejected (`strict=True`). -/
def parseJsonString : ℕ → List Char → Option (List Char × List Char)
  | 0, _ => none
  | _ + 1, [] => none
  | fuel + 1, c :: rest =>
    if c = '"' then some ([], rest)
    else if c = '\\' then
      match rest with
      | [] => none
      | e :: rest2 =>
        if e = '"' then
          (parseJsonString fuel rest2).map (fun p => ('"' :: p.1, p.2))
        else if e = '\\' then
          (parseJsonString fuel rest2).map (fun p => ('\\' :: p.1, p.2))
        else if e = '/' then
          (parseJsonString fuel rest2).map (fun p => ('/' :: p.1, p.2))
        else if e = 'b' then
          (parseJsonString fuel rest2).map (fun p => ('\x08' :: p.1, p.2))
        else if e = 'f' then
          (parseJsonString fuel rest2).map (fun p => ('\x0c' :: p.1, p.2))
        else if e = 'n' then
          (parseJsonString fuel rest2).map (fun p => ('\n' :: p.1, p.2))
        else if e = 'r' then
          (parseJsonString fuel rest2).map (fun p => ('\r' :: p.1, p.2))
        else if e = 't' then
          (parseJsonString fuel rest2).map (fun p => ('\t' :: p.1, p.2))
        else if e = 'u' then
          match rest2 with
          | h1 :: h2 :: h3 :: h4 :: rest3 =>
            match parseHexDigit h1, parseHexDigit h2,
                parseHexDigit h3, parseHexDigit h4 with
            | some a, some b, some c2, some d =>
              (parseJsonString fuel rest3).map
                (fun p => (Char.ofNat (((a * 16 + b) * 16 + c2) * 16 + d) :: p.1,
                  p.2))
            | _, _, _, _ => none
          | _ => none
        else none
    else if c.toNat < 32 then none
    else (parseJsonString fuel rest).map (fun p => (c :: p.1, p.2))

/-- JSON number after an optional leading minus: mantissa as numerator and
denominator (exponent folded in), plus the remaining input. -/
def jsonNumberCore (s1 : List Char) : Option (ℤ × ℕ × List Char) :=
  let ip := s1.takeWhile Char.isDigit
  if ip.isEmpty then none
  else if 2 ≤ ip.length ∧ ip.headD '0' = '0' then none
  else
    let s2 := s1.drop ip.length
    let fp := match s2 with
      | '.' :: r => r.takeWhile Char.isDigit
      | _ => []
    let s3 := match s2 with
      | '.' :: r => r.drop (r.takeWhile Char.isDigit).length
      | _ => s2
    if s2.headD 'x' = '.' ∧ fp.isEmpty then none
    else
      match s3 with
      | 'e' :: r | 'E' :: r =>
        match r with
        | '-' :: rr =>
          let ed := rr.takeWhile Char.isDigit
          if ed.isEmpty then none
          else some ((digitsToNat ip * 10 ^ fp.length + digitsToNat fp : ℕ),
            10 ^ fp.length * 10 ^ digitsToNat ed, rr.drop ed.length)
        | '+' :: rr =>
          let ed := rr.takeWhile Char.isDigit
          if ed.isEmpty then none
          else some (((digitsToNat ip * 10 ^ fp.length + digitsToNat fp) *
            10 ^ digitsToNat ed : ℕ), 10 ^ fp.length, rr.drop ed.length)
        | _ =>
          let ed := r.takeWhile Char.isDigit
          if ed.isEmpty then none
          else some (((digitsToNat ip * 10 ^ fp.length + digitsToNat fp) *
            10 ^ digitsToNat ed : ℕ), 10 ^ fp.length, r.drop ed.length)
      | _ => some ((digitsToNat ip * 10 ^ fp.length + digitsToNat fp : ℕ),
          10 ^ fp.length, s3)

/-- JSON number (with sign), as an exact rational. -/
def jsonNumber (l : List Char) : Option (ℚ × List Char) :=
  match l with
  | '-' :: r =>
    match jsonNumberCore r with
    | some (m, d, rest) => some (mkRat (-m) d, rest)
    | none => none
  | _ =>
    match jsonNumberCore l with
    | some (m, d, rest) => some (mkRat m d, rest)
    | none => none

/-- Intermediate output of the JSON descent: a value, array items, or
object members. -/
inductive JOut where
  | v (x : Json) : JOut
  | vs (xs : List Json) : JOut
  | ms (xs : List (List Char × Json)) : JOut

/-- The recursive descent: mode 0 parses a value, mode 1 the items after
`[`, mode 2 the members after the first character following `{`. -/
def jsonPgo : ℕ → ℕ → List Char → Option (JOut × List Char)
  | 0, _, _ => none
  | fuel + 1, 0, l =>
    match jsonSkipWs l with
    | [] => none
    | '{' :: rest =>
      match jsonSkipWs rest with
      | '}' :: r2 => some (.v (Json.obj []), r2)
      | _ =>
        match jsonPgo fuel 2 rest with
        | some (.ms ms, r) => some (.v (Json.obj ms), r)
        | _ => none
    | '[' :: rest =>
      match jsonSkipWs rest with
      | ']' :: r2 => some (.v (Json.arr []), r2)
      | _ =>
        match jsonPgo fuel 1 rest with
        | some (.vs xs, r) => some (.v (Json.arr xs), r)
        | _ => none
    | '"' :: rest =>
      match parseJsonString rest.length rest with
      | some (s, r) => some (.v (Json.str s), r)
      | none => none
    | c :: rest =>
      if ("true".data).isPrefixOf (c :: rest) then
        some (.v (Json.bool true), (c :: rest).drop 4)
      else if ("false".data).isPrefixOf (c :: rest) then
        some (.v (Json.bool false), (c :: rest).drop 5)
      else if ("null".data).isPrefixOf (c :: rest) then
        some (.v Json.null, (c :: rest).drop 4)
      else
        match jsonNumber (c :: rest) with
        | some (q, r) => some (.v (Json.num q), r)
        | none => none
  | fuel + 1, 1, l =>
    match jsonPgo fuel 0 l with
    | some (.v x, r) =>
      match jsonSkipWs r with
      | ',' :: r2 =>
        match jsonPgo fuel 1 r2 with
        | some (.vs xs, rr) => some (.vs (x :: xs), rr)
        | _ => none
      | ']' :: r2 => some (.vs [x], r2)
      | _ => none
    | _ => none
  | fuel + 1, 2, l =>
    match jsonSkipWs l with
    | '"' :: rest =>
      match parseJsonString rest.length rest with
      | some (k, r) =>
        match jsonSkipWs r with
        | ':' :: r2 =>
          match jsonPgo fuel 0 r2 with
          | some (.v x, r3) =>
            match jsonSkipWs r3 with
            | ',' :: r4 =>
              match jsonPgo fuel 2 r4 with
              | some (.ms ms, rr) => some (.ms ((k, x) :: ms), rr)
              | _ => none
            | '}' :: r4 => some (.ms [(k, x)], r4)
            | _ => none
          | _ => none
        | _ => none
      | none => none
    | _ => none
  | _ + 1, _ + 3, _ => none

/-- `json.loads(text)`: a single value, with only whitespace around it. -/
def jsonParse (l : List Char) : Option Json :=
  match jsonPgo (4 * l.length + 4) 0 l with
  | some (.v x, r) => if (jsonSkipWs r).isEmpty then some x else none
  | _ => none

/-- Index of the first occurrence of `needle` (fuel-indexed scan). -/
def strFindGo (needle : List Char) : ℕ → List Char → Option ℕ
  | 0, l => if needle.isPrefixOf l then some 0 else none
  | fuel + 1, l =>
    if needle.isPrefixOf l then some 0
    else
      match l with
      | [] => none
      | _ :: rest => (strFindGo needle fuel rest).map (· + 1)

/-- Substring containment (`needle in hay`). -/
def pySubstr (needle hay : List Char) : Bool :=
  (strFindGo needle hay.length hay).isSome

/-- `re.search(tag + r'\s*([\s\S]*?)\s*```', text)` followed by
`.group(1).strip()`, for the two fence patterns: the stripped text between
the first occurrence of the opening `tag` and the earliest closing triple
backtick after it.  (With a leftmost-start, shortest-lazy-body match and
the subsequent `.strip()`, the regex reduces to exactly this: a later
opening can succeed only if a closing fence follows it, and that closing
also closes the first opening.) -/
def extractFenced (tag : List Char) (text : List Char) : Option (List Char) :=
  match strFindGo tag text.length text with
  | none => none
  | some i =>
    match strFindGo ("```".data) (text.drop (i + tag.length)).length
        (text.drop (i + tag.length)) with
    | none => none
    | some j => some (pyStripL ((text.drop (i + tag.length)).take j))

/-- At a candidate start of `\[\s*\{`: the index of the `{` if the prefix
matches. -/
def openArrAt (l : List Char) : Option ℕ :=
  match l with
  | '[' :: rest =>
    if (rest.drop (rest.takeWhile pyIsSpace).length).headD 'x' = '{' then
      some (1 + (rest.takeWhile pyIsSpace).length)
    else none
  | _ => none

/-- After the opening `{`: consumed length up to and including the earliest
`\}\s*\]` (the lazy body grows past braces not followed by `\s*\]`). -/
def closeArrAt : ℕ → List Char → Option ℕ
  | 0, _ => none
  | _ + 1, [] => none
  | fuel + 1, c :: rest =>
    if c = '}' ∧ (rest.drop (rest.takeWhile pyIsSpace).length).headD 'x' = ']' then
      some ((rest.takeWhile pyIsSpace).length + 2)
    else (closeArrAt fuel rest).map (· + 1)

/-- `re.search(r'\[\s*\{[\s\S]*?\}\s*\]', text)` and `.group(0)`: scanning
starts left to right; at each `[\s*{` prefix the lazy body ends at the
earliest `}\s*]`. -/
def findArrayOfObjects : ℕ → List Char → Option (List Char)
  | 0, _ => none
  | fuel + 1, l =>
    match l with
    | [] => none
    | _ :: rest =>
      match openArrAt l with
      | some p =>
        match closeArrAt (l.drop (p + 1)).length (l.drop (p + 1)) with
        | some k => some (l.take (p + 1 + k))
        | none => findArrayOfObjects fuel rest
      | none => findArrayOfObjects fuel rest

/-- `isinstance(item, dict)`. -/
def jsonIsDict : Json → Bool
  | Json.obj _ => true
  | _ => false

/-- Python dict lookup for a JSON object (later duplicate keys win, as in
`json.loads`). -/
def jLookup (ms : List (List Char × Json)) (k : List Char) : Option Json :=
  ms.foldl (fun acc kv => if kv.1 = k then some kv.2 else acc) none

/-- Python dict assignment preserving first-insertion order. -/
def dSet (ms : List (List Char × Json)) (k : List Char) (v : Json) :
    List (List Char × Json) :=
  if ms.any (fun kv => kv.1 = k) then
    ms.map (fun kv => if kv.1 = k then (k, v) else kv)
  else ms ++ [(k, v)]

/-- `value.strip('"\'')` after the whitespace strip. -/
def stripQuotes (l : List Char) : List Char :=
  ((l.dropWhile (fun c => c = '"' ∨ c = '\'')).reverse.dropWhile
    (fun c => c = '"' ∨ c = '\'')).reverse

/-- `key.strip().lower().replace(' ', '_')`. -/
def normKey (l : List Char) : List Char :=
  ((pyStripL l).map Char.toLower).map (fun c => if c = ' ' then '_' else c)

/-- `float(value)` (finite decimal forms; `nan`/`inf` literals are outside
the rational model and treated as unparseable). -/
def pyFloat (l : List Char) : Option ℚ :=
  let s := pyStripL l
  let s1 := match s with
    | '-' :: r => r
    | '+' :: r => r
    | _ => s
  let sgn : ℤ := match s with
    | '-' :: _ => -1
    | _ => 1
  let ip := s1.takeWhile Char.isDigit
  let s2 := s1.drop ip.length
  let fp := match s2 with
    | '.' :: r => r.takeWhile Char.isDigit
    | _ => []
  let s3 := match s2 with
    | '.' :: r => r.drop (r.takeWhile Char.isDigit).length
    | _ => s2
  if ip.isEmpty ∧ fp.isEmpty then none
  else
    match s3 with
    | [] => some (mkRat (sgn * (digitsToNat ip * 10 ^ fp.length +
        digitsToNat fp : ℕ)) (10 ^ fp.length))
    | e :: r =>
      if e = 'e' ∨ e = 'E' then
        match r with
        | '-' :: rr =>
          if (rr.takeWhile Char.isDigit).isEmpty ∨
              ¬(rr.drop (rr.takeWhile Char.isDigit).length).isEmpty then none
          else some (mkRat (sgn * (digitsToNat ip * 10 ^ fp.length +
            digitsToNat fp : ℕ))
            (10 ^ fp.length * 10 ^ digitsToNat (rr.takeWhile Char.isDigit)))
        | '+' :: rr =>
          if (rr.takeWhile Char.isDigit).isEmpty ∨
              ¬(rr.drop (rr.takeWhile Char.isDigit).length).isEmpty then none
          else some (mkRat (sgn * ((digitsToNat ip * 10 ^ fp.length +
            digitsToNat fp) * 10 ^ digitsToNat (rr.takeWhile Char.isDigit) : ℕ))
            (10 ^ fp.length))
        | _ =>
          if (r.takeWhile Char.isDigit).isEmpty ∨
              ¬(r.drop (r.takeWhile Char.isDigit).length).isEmpty then none
          else some (mkRat (sgn * ((digitsToNat ip * 10 ^ fp.length +
            digitsToNat fp) * 10 ^ digitsToNat (r.takeWhile Char.isDigit) : ℕ))
            (10 ^ fp.length))
      else none

/-- First digit run of `re.findall(r'[\d,]+', value)` after the `$` and `,`
removals (the runs are then pure digit runs). -/
def firstDigitRun (l : List Char) : Option ℕ :=
  match l.dropWhile (fun c => ¬c.isDigit) with
  | [] => none
  | c :: rest => some (digitsToNat ((c :: rest).takeWhile Char.isDigit))

/-- `_create_fallback_insights(response_text)`: keyword-triggered stubs. -/
def create_fallback_insights (response : List Char) : List Json :=
  (if response.contains '$' ||
      pySubstr ("budget".data) (response.map Char.toLower) ||
      pySubstr ("cost".data) (response.map Char.toLower) then
    [Json.obj [("insight_type".data, Json.str ("budget_impact".data)),
      ("title".data, Json.str ("Financial Impact Identified".data)),
      ("description".data, Json.str
        ("Document contains financial implications that require review.".data)),
      ("severity".data, Json.str ("medium".data)),
      ("confidence_score".data, Json.num (mkRat 3 5))]]
  else []) ++
  (if ["urgent", "critical", "emergency", "immediate"].any
      (fun w => pySubstr w.data (response.map Char.toLower)) then
    [Json.obj [("insight_type".data, Json.str ("risk".data)),
      ("title".data, Json.str ("Urgent Issue Identified".data)),
      ("description".data, Json.str
        ("Document contains urgent or critical issues requiring attention.".data)),
      ("severity".data, Json.str ("high".data)),
      ("confidence_score".data, Json.num (mkRat 7 10))]]
  else []) ++
  (if ["action", "todo", "task", "deadline"].any
      (fun w => pySubstr w.data (response.map Char.toLower)) then
    [Json.obj [("insight_type".data, Json.str ("action_item".data)),
      ("title".data, Json.str ("Action Items Identified".data)),
      ("description".data, Json.str
        ("Document contains action items or tasks that need to be completed.".data)),
      ("severity".data, Json.str ("medium".data)),
      ("confidence_score".data, Json.num (mkRat 3 5))]]
  else [])

/-- The key dispatch of `_parse_insights_from_text`. -/
def textKV (st : List Json × List (List Char × Json)) (key value : List Char) :
    List Json × List (List Char × Json) :=
  if key = "type".data ∨ key = "insight_type".data then
    (if st.2.isEmpty then st.1 else st.1 ++ [Json.obj st.2],
      [("insight_type".data, Json.str value)])
  else if key = "title".data then
    (st.1, dSet st.2 ("title".data) (Json.str value))
  else if key = "description".data then
    (st.1, dSet st.2 ("description".data) (Json.str value))
  else if key = "severity".data ∨ key = "priority".data then
    (st.1, dSet st.2 ("severity".data) (Json.str value))
  else if key = "confidence".data ∨ key = "confidence_score".data then
    (st.1, dSet st.2 ("confidence_score".data) (Json.num
      (match pyFloat value with
        | some q => q
        | none => mkRat 7 10)))
  else if key = "assignee".data ∨ key = "assigned_to".data then
    (st.1, dSet st.2 ("assignee".data) (Json.str value))
  else if key = "financial_impact".data then
    match firstDigitRun (value.filter (fun c => c ≠ '$' ∧ c ≠ ',')) with
    | some n => (st.1, dSet st.2 ("financial_impact".data) (Json.num (mkRat n 1)))
    | none => st
  else st

/-- One line of `_parse_insights_from_text`: state is (saved insights,
current partial insight dict). -/
def textStep (st : List Json × List (List Char × Json)) (rawLine : List Char) :
    List Json × List (List Char × Json) :=
  if (pyStripL rawLine).isEmpty then st
  else if (pyStripL rawLine).contains ':' then
    textKV st (normKey ((pyStripL rawLine).takeWhile (fun c => c ≠ ':')))
      (stripQuotes (pyStripL ((pyStripL rawLine).drop
        (((pyStripL rawLine).takeWhile (fun c => c ≠ ':')).length + 1))))
  else st

/-- The tail of `_parse_insights_from_text` after the line loop: the final
flush requires a title, and the keyword stubs replace an empty result. -/
def textFinish (st : List Json × List (List Char × Json))
    (response : List Char) : List Json :=
  if (if !st.2.isEmpty && st.2.any (fun kv => kv.1 = "title".data) then
      st.1 ++ [Json.obj st.2] else st.1).isEmpty then
    create_fallback_insights response
  else
    if !st.2.isEmpty && st.2.any (fun kv => kv.1 = "title".data) then
      st.1 ++ [Json.obj st.2]
    else st.1

/-- `_parse_insights_from_text(response_text)`. -/
def parse_insights_from_text (response : List Char) : List Json :=
  textFinish ((splitOnNl response).foldl textStep ([], [])) response

/-- One `json_patterns` iteration of `_parse_insights_json`: a matched and
stripped extraction is parsed; only a non-empty array keeps going, and only
its dict items survive; anything else falls through to the next pattern. -/
def patternAttempt (o : Option (List Char)) : Option Json :=
  match o with
  | none => none
  | some body =>
    match jsonParse body with
    | some (Json.arr xs) =>
      if xs.isEmpty then none
      else
        if (xs.filter jsonIsDict).isEmpty then none
        else some (Json.arr (xs.filter jsonIsDict))
    | _ => none

/-- `_parse_insights_json(response_text)`.  The result is a `Json` value:
the direct-parse branch returns any parsed list as is (even non-dict
items), the dict-wrapper branch returns `insights['insights']` whatever it
is, and every other road ends in a list. -/
def parse_insights_json (response : List Char) : Json :=
  match jsonParse response with
  | some (Json.arr xs) => Json.arr xs
  | some (Json.obj ms) =>
    match jLookup ms ("insights".data) with
    | some v => v
    | none => Json.arr []
  | some _ => Json.arr []
  | none =>
    match patternAttempt (extractFenced ("```json".data) response) with
    | some r => r
    | none =>
      match patternAttempt (extractFenced ("```".data) response) with
      | some r => r
      | none =>
        match patternAttempt
            ((findArrayOfObjects response.length response).map pyStripL) with
        | some r => r
        | none => Json.arr (parse_insights_from_text response)

/-- C9 counterexample input: a fenced code block holding a valid JSON
array of non-dict items. -/
def c9bad : List Char := "```json\n[1, 2]\n```".data

/-- C9 witness input: a direct JSON array of one insight object. -/
def c9wit : List Char := "[\x7b\"title\": \"Budget\"\x7d]".data

/-- C9 witness input for the unparseable-prose road. -/
def c9prose : List Char := "no structured content here".data

/-- C9, counterexample: the fenced block of `c9bad` contains the valid
JSON array `[1, 2]`, yet the parser returns the empty list, not the parsed
list: the code-block branch keeps only dict items and falls through when
none remain, ending in the text/stub fallback. -/
theorem claim_C9_counterexample :
    extractFenced ("```json".data) c9bad = some ("[1, 2]".data) ∧
    jsonParse ("[1, 2]".data) =
      some (Json.arr [Json.num (mkRat 1 1), Json.num (mkRat 2 1)]) ∧
    parse_insights_json c9bad = Json.arr [] ∧
    Json.arr ([] : List Json) ≠
      Json.arr [Json.num (mkRat 1 1), Json.num (mkRat 2 1)] :=
  ⟨rfl, rfl, rfl, by simp⟩

/-- C9, amended: the parser is total (never an unhandled exception) and
(a) a directly-valid JSON array is returned exactly as parsed (even with
non-dict items); (b) a fenced JSON array is returned only if non-empty
and only through its dict items; (c) the same for an array of objects
embedded in prose, after the two fence patterns fail; (d) when every JSON
avenue fails the structured-text fallback (possibly empty or
keyword-triggered stubs) is returned. -/
theorem claim_C9_amended (r : List Char) :
    (∀ xs, jsonParse r = some (Json.arr xs) →
      parse_insights_json r = Json.arr xs) ∧
    (∀ b xs, jsonParse r = none →
      extractFenced ("```json".data) r = some b →
      jsonParse b = some (Json.arr xs) → xs.isEmpty = false →
      (xs.filter jsonIsDict).isEmpty = false →
      parse_insights_json r = Json.arr (xs.filter jsonIsDict)) ∧
    (∀ b xs, jsonParse r = none →
      patternAttempt (extractFenced ("```json".data) r) = none →
      patternAttempt (extractFenced ("```".data) r) = none →
      findArrayOfObjects r.length r = some b →
      jsonParse (pyStripL b) = some (Json.arr xs) → xs.isEmpty = false →
      (xs.filter jsonIsDict).isEmpty = false →
      parse_insights_json r = Json.arr (xs.filter jsonIsDict)) ∧
    (jsonParse r = none →
      patternAttempt (extractFenced ("```json".data) r) = none →
      patternAttempt (extractFenced ("```".data) r) = none →
      patternAttempt ((findArrayOfObjects r.length r).map pyStripL) = none →
      parse_insights_json r = Json.arr (parse_insights_from_text r)) := by
  refine ⟨?_, ?_, ?_, ?_⟩
  · intro xs h
    simp only [parse_insights_json, h]
  · intro b xs h0 h1 h2 h3 h4
    have hp : patternAttempt (extractFenced ("```json".data) r) =
        some (Json.arr (xs.filter jsonIsDict)) := by
      simp only [h1, patternAttempt, h2, h3, h4, Bool.false_eq_true,
        if_false]
    simp only [parse_insights_json, h0, hp]
  · intro b xs h0 h1 h2 h5 h6 h7 h8
    have hp : patternAttempt
        ((findArrayOfObjects r.length r).map pyStripL) =
        some (Json.arr (xs.filter jsonIsDict)) := by
      simp only [h5, Option.map_some', patternAttempt, h6, h7, h8,
        Bool.false_eq_true, if_false]
    simp only [parse_insights_json, h0, h1, h2, hp]
  · intro h0 h1 h2 h3
    simp only [parse_insights_json, h0, h1, h2, h3]

/-- C9 witness: the direct-array road on `c9wit` and the all-fallthrough
road on `c9prose`, both by applying the amended theorem at evaluated
hypotheses. -/
theorem claim_C9_witness :
    (jsonParse c9wit =
        some (Json.arr [Json.obj [("title".data, Json.str ("Budget".data))]]) ∧
      parse_insights_json c9wit =
        Json.arr [Json.obj [("title".data, Json.str ("Budget".data))]]) ∧
    (jsonParse c9prose = none ∧
      patternAttempt (extractFenced ("```json".data) c9prose) = none ∧
      patternAttempt (extractFenced ("```".data) c9prose) = none ∧
      patternAttempt
        ((findArrayOfObjects c9prose.length c9prose).map pyStripL) = none ∧
      parse_insights_json c9prose =
        Json.arr (parse_insights_from_text c9prose)) :=
  ⟨⟨rfl, (claim_C9_amended c9wit).1 _ rfl⟩,
    ⟨rfl, rfl, rfl, rfl,
      (claim_C9_amended c9prose).2.2.2 rfl rfl rfl rfl⟩⟩
